import Mathlib

/-!
Verification of the mod-synchronisation tool (ModManager / AutoUpdater).

The development shallowly embeds the program: pure string manipulation is
translated to functions on `List Char`, filesystem effects become explicit
state passing over a directory listing (`List DirFile`) together with an
event trace (`List SyncEvent`), and fallible operations return `Except`.
Network responses (registry search results, version listings, download
bodies, the release feed) are supplied by an environment record, since the
program treats them as opaque inputs.
-/

namespace ModSync

deriving instance DecidableEq for Except

/-- Characters of a JavaScript string after `toLowerCase()`. -/
def lowerChars (l : List Char) : List Char := l.map Char.toLower

/-- Worker for `replace(/\s+/g, "-")`: each maximal run of whitespace
becomes a single hyphen.  The flag records whether the previous character
was part of a whitespace run already replaced. -/
def collapseWsAux : Bool → List Char → List Char
  | _, [] => []
  | inRun, c :: rest =>
    if c.isWhitespace then
      if inRun then collapseWsAux true rest else '-' :: collapseWsAux true rest
    else c :: collapseWsAux false rest

/-- `replace(/\s+/g, "-")` on a JavaScript string. -/
def collapseWs (l : List Char) : List Char := collapseWsAux false l

/-- `mod.name.toLowerCase().replace(/\s+/g, "-")` — the normalized base
name of a manifest entry (`configModNames` / `modBaseNameSearch` in the
source).  `generateFileName` applies the two steps in the other order,
which yields the same characters because lowering fixes both whitespace
and the hyphen. -/
def normName (name : String) : List Char := collapseWs (lowerChars name.toList)

/-- JavaScript `String.prototype.endsWith`. -/
def strEndsWith (s p : String) : Bool := p.toList.isSuffixOf s.toList

/-- JavaScript `String.prototype.includes` (substring containment). -/
def hasSub : List Char → List Char → Bool
  | [], sub => sub.isEmpty
  | c :: rest, sub => sub.isPrefixOf (c :: rest) || hasSub rest sub

/-- `fileName.replace(/\.jar$/i, "").toLowerCase()` — the normalized base
name of an installed file (`extractModBaseName` in the source). -/
def extractModBaseName (fileName : String) : List Char :=
  let cs := fileName.toList
  let stripped := if (".jar".toList).isSuffixOf (lowerChars cs) then cs.take (cs.length - 4) else cs
  lowerChars stripped

/-- `version_number.replace(/^v/, "")`. -/
def stripLeadingV (s : String) : String :=
  match s.toList with
  | 'v' :: rest => String.mk rest
  | _ => s

/-- `ModConfig.source` field (`curseforge | modrinth | url`). -/
inductive ModSource where
  | curseforge
  | modrinth
  | url
deriving DecidableEq, Repr

/-- `interface ModConfig` of the source. -/
structure ModConfig where
  name : String
  version : Option String := none
  source : Option ModSource := none
  projectId : Option String := none
  downloadUrl : Option String := none
  fileName : Option String := none
deriving DecidableEq, Repr

/-- `interface ModpackConfig` of the source (the external-source pointer is
resolved before the sync pass and does not participate in it). -/
structure ModpackConfig where
  modLoader : String
  gameVersion : String
  prune : Option Bool := none
  mods : List ModConfig
deriving DecidableEq, Repr

/-- `interface SearchResult` of the source. -/
structure SearchHit where
  title : String
  slug : String
  project_id : String
  categories : List String
deriving DecidableEq, Repr

/-- One downloadable file of a registry version record. -/
structure VersionFile where
  url : String
  filename : String
deriving DecidableEq, Repr

/-- `interface Version` of the source: one entry of a project's
version-listing response. -/
structure RegVersion where
  game_versions : List String
  loaders : List String
  version_number : String
  files : List VersionFile
deriving DecidableEq, Repr

/-- Result of `getModrinthDownloadUrl` (url, version label, file name);
also used for the per-entry target computed at the top of
`processModDownload` (`downloadUrl`, `versionDisplay`, `expectedFileName`). -/
structure ResolvedInfo where
  url : String
  version : String
  fileName : String
deriving DecidableEq, Repr

/-- One entry of the mods directory: name, regular-file flag (directories
have `isFile := false`) and byte content. -/
structure DirFile where
  name : String
  isFile : Bool := true
  content : List Nat := []
deriving DecidableEq, Repr

/-- Outcome of processing one manifest entry. -/
inductive EntryOutcome where
  | kept
  | installed
  | errored (msg : String)
deriving DecidableEq, Repr

/-- Observable filesystem/trace events of one sync pass.
`staleDeleteFailed` records the caught failure of a stale-variant removal
(the file was already gone); it deletes nothing. -/
inductive SyncEvent where
  | pruneDelete (name : String)
  | staleDelete (name : String)
  | staleDeleteFailed (name : String)
  | download (url : String) (target : String)
  | entryDone (modName : String) (outcome : EntryOutcome)
deriving DecidableEq, Repr

/-- Mods-directory contents plus the event trace of the running pass. -/
structure SyncState where
  dir : List DirFile
  events : List SyncEvent
deriving DecidableEq, Repr

/-- Remote world as the program observes it: search responses keyed by
query, version listings keyed by project id, and HTTP download outcomes
keyed by URL. -/
structure Env where
  searchHits : String → List SearchHit
  projectVersions : String → List RegVersion
  fetchOk : String → Bool
  fetchBody : String → List Nat

/-- `getCurrentMods`: list the mods directory, keeping regular files whose
name ends in `.jar`. -/
def getCurrentMods (dir : List DirFile) : List String :=
  (dir.filter (fun f => f.isFile && strEndsWith f.name ".jar")).map (fun f => f.name)

/-- `Deno.stat`/`Deno.open`-style lookup of a directory entry by name. -/
def findFile (dir : List DirFile) (name : String) : Option DirFile :=
  dir.find? (fun f => f.name == name)

/-- `Deno.remove` on a name present in the directory. -/
def removeName (dir : List DirFile) (name : String) : List DirFile :=
  dir.filter (fun f => f.name != name)

/-- `downloadFile`'s effect on the directory: `Deno.open` with
`create: true, write: true` (no truncation) followed by a sequential write
of the response body from the start of the file. -/
def writeFile (dir : List DirFile) (name : String) (body : List Nat) : List DirFile :=
  if dir.any (fun f => f.name == name) then
    dir.map (fun f =>
      if f.name == name then { f with isFile := true, content := body ++ f.content.drop body.length }
      else f)
  else
    dir ++ [{ name := name, isFile := true, content := body }]

/-- The guarded `Deno.remove` of the stale-variant loop: the failure of the
removal (file already gone) is caught and only logged. -/
def tryRemoveStale (s : SyncState) (name : String) : SyncState :=
  if s.dir.any (fun f => f.name == name) then
    { dir := removeName s.dir name, events := s.events ++ [SyncEvent.staleDelete name] }
  else
    { s with events := s.events ++ [SyncEvent.staleDeleteFailed name] }

/-- The unguarded `Deno.remove` of the pruning loop; its argument always
comes from the directory listing just taken, so the removal succeeds. -/
def pruneRemove (s : SyncState) (name : String) : SyncState :=
  { dir := removeName s.dir name, events := s.events ++ [SyncEvent.pruneDelete name] }

/-- `validateJarFile`: stat the file, fail on emptiness, then read the
first four bytes into a zero-initialized buffer and compare them with the
ZIP local-file-header signature.  The function only reads; the directory is
returned unchanged. -/
def validateJarFile (dir : List DirFile) (path : String) : Except String Unit × List DirFile :=
  match findFile dir path with
  | none => (Except.error "Archivo JAR invalido: archivo no encontrado", dir)
  | some f =>
    if f.content.length == 0 then
      (Except.error "Archivo JAR invalido: Archivo vacio", dir)
    else if f.content.getD 0 0 != 0x50 || f.content.getD 1 0 != 0x4B
        || f.content.getD 2 0 != 0x03 || f.content.getD 3 0 != 0x04 then
      (Except.error "Archivo JAR invalido: No es un archivo JAR valido", dir)
    else
      (Except.ok (), dir)

/-- `searchModrinthProject`: name-based discovery.  Selection order: exact
case-insensitive title/slug match, then substring containment in either
direction, then the first (registry-ranked) hit. -/
def searchModrinthProject (env : Env) (modName : String) : Except String String :=
  match env.searchHits modName with
  | [] => Except.error ("No se encontraron proyectos para " ++ modName)
  | h0 :: hs =>
    let hits : List SearchHit := h0 :: hs
    let best :=
      match hits.find? (fun h =>
          h.title.toLower == modName.toLower || h.slug.toLower == modName.toLower) with
      | some h => h
      | none =>
        match hits.find? (fun (h : SearchHit) =>
            hasSub h.title.toLower.toList modName.toLower.toList
            || hasSub modName.toLower.toList h.title.toLower.toList) with
        | some h => h
        | none => h0
    Except.ok best.project_id

/-- Compatibility filter applied to every registry version record. -/
def isCompatible (cfg : ModpackConfig) (v : RegVersion) : Bool :=
  v.game_versions.contains cfg.gameVersion && v.loaders.contains cfg.modLoader

/-- Version selection for a pinned entry: first the exact search, then the
flexible retry (`version_number === "v" + pin` or
`version_number.replace(/^v/, "") === pin`). -/
def findPinnedVersion (cfg : ModpackConfig) (versions : List RegVersion) (pin : String) : Option RegVersion :=
  match versions.find? (fun v => isCompatible cfg v && v.version_number == pin) with
  | some v => some v
  | none =>
    versions.find? (fun v => isCompatible cfg v &&
      (v.version_number == "v" ++ pin || stripLeadingV v.version_number == pin))

/-- `getModrinthDownloadUrl`: resolve the project id (searching by name if
absent), fetch its version list, choose a version (pinned or first
compatible) and return the first attached file. -/
def getModrinthDownloadUrl (env : Env) (cfg : ModpackConfig) (mod : ModConfig) : Except String ResolvedInfo :=
  match (match mod.projectId with
         | some p => Except.ok p
         | none => searchModrinthProject env mod.name : Except String String) with
  | Except.error e => Except.error ("Error obteniendo URL de Modrinth para " ++ mod.name ++ ": " ++ e)
  | Except.ok projectId =>
    let versions := env.projectVersions projectId
    let chosen : Except String RegVersion :=
      match mod.version with
      | some pin =>
        match findPinnedVersion cfg versions pin with
        | some v => Except.ok v
        | none => Except.error ("Error obteniendo URL de Modrinth para " ++ mod.name
            ++ ": Version especifica " ++ pin ++ " no encontrada")
      | none =>
        match versions.find? (fun v => isCompatible cfg v) with
        | some v => Except.ok v
        | none => Except.error ("Error obteniendo URL de Modrinth para " ++ mod.name
            ++ ": No se encontro ninguna version compatible")
    match chosen with
    | Except.error e => Except.error e
    | Except.ok v =>
      match v.files with
      | [] => Except.error ("Error obteniendo URL de Modrinth para " ++ mod.name
          ++ ": version sin archivos")
      | f :: _ => Except.ok { url := f.url, version := v.version_number, fileName := f.filename }

/-- `generateFileName`: explicit file name if given, otherwise
`{sanitized-name}-{version|latest}.jar`. -/
def generateFileName (mod : ModConfig) : String :=
  match mod.fileName with
  | some f => f
  | none =>
    let sanitizedName := String.mk (lowerChars (collapseWs mod.name.toList))
    let version := mod.version.getD "latest"
    sanitizedName ++ "-" ++ version ++ ".jar"

/-- Step 1 of `processModDownload`: resolve the entry to
(`downloadUrl`, `versionDisplay`, `expectedFileName`).  CurseForge always
fails; a `url`/absent source takes the data from the entry itself. -/
def resolveEntry (env : Env) (cfg : ModpackConfig) (mod : ModConfig) : Except String ResolvedInfo :=
  match mod.source with
  | some ModSource.modrinth => getModrinthDownloadUrl env cfg mod
  | some ModSource.curseforge =>
    Except.error ("CurseForge no implementado completamente para " ++ mod.name)
  | _ =>
    if mod.downloadUrl.isNone && mod.source == some ModSource.url then
      Except.error "source url requiere downloadUrl"
    else
      Except.ok { url := mod.downloadUrl.getD "",
                  version := mod.version.getD "custom",
                  fileName := mod.fileName.getD (generateFileName mod) }

/-- Step 2 of `processModDownload`: delete the stale/duplicate variants of
this specific entry — files of the run-start snapshot whose base name
starts with the entry's base name but which are not the expected file. -/
def stalePass (modBaseNameSearch : List Char) (expectedFileName : String)
    (currentMods : List String) (s : SyncState) : SyncState :=
  let duplicates := currentMods.filter (fun current =>
    modBaseNameSearch.isPrefixOf (extractModBaseName current) && current != expectedFileName)
  duplicates.foldl tryRemoveStale s

/-- Step 4 of `processModDownload`: `downloadFile` (which creates no file
when the HTTP response is not ok) followed by `validateJarFile`.  A
validation failure is thrown and caught at the entry boundary; the
downloaded file is not removed on this path. -/
def downloadAndValidate (env : Env) (modName : String) (tgt : ResolvedInfo) (s : SyncState) : SyncState :=
  if env.fetchOk tgt.url then
    let dir2 := writeFile s.dir tgt.fileName (env.fetchBody tgt.url)
    let s2 : SyncState := { dir := dir2, events := s.events ++ [SyncEvent.download tgt.url tgt.fileName] }
    match (validateJarFile dir2 tgt.fileName).fst with
    | Except.ok _ =>
      { s2 with events := s2.events ++ [SyncEvent.entryDone modName EntryOutcome.installed] }
    | Except.error e =>
      { s2 with events := s2.events ++ [SyncEvent.entryDone modName (EntryOutcome.errored e)] }
  else
    { s with events := s.events ++ [SyncEvent.entryDone modName (EntryOutcome.errored "Error descargando")] }

/-- Step 3 of `processModDownload`: if the expected file exists with
non-zero size the entry is converged (`Keep`); otherwise (missing file or
zero size) fall through to download and validation. -/
def ensureInstalled (env : Env) (modName : String) (tgt : ResolvedInfo) (s : SyncState) : SyncState :=
  match findFile s.dir tgt.fileName with
  | some f =>
    if f.content.length > 0 then
      { s with events := s.events ++ [SyncEvent.entryDone modName EntryOutcome.kept] }
    else downloadAndValidate env modName tgt s
  | none => downloadAndValidate env modName tgt s

/-- `processModDownload`: the whole body runs inside a try/catch whose
handler only logs, so every error is absorbed into the entry's
`entryDone … (errored _)` event and the pass continues. -/
def processModDownload (env : Env) (cfg : ModpackConfig) (mod : ModConfig)
    (currentMods : List String) (s : SyncState) : SyncState :=
  match resolveEntry env cfg mod with
  | Except.error e =>
    { s with events := s.events ++ [SyncEvent.entryDone mod.name (EntryOutcome.errored e)] }
  | Except.ok tgt =>
    ensureInstalled env mod.name tgt (stalePass (normName mod.name) tgt.fileName currentMods s)

/-- The orphan-pruning loop of `syncMods` (runs unless `prune === false`):
a listed file whose base name contains no entry's base name is removed. -/
def prunePass (cfg : ModpackConfig) (currentMods : List String) (s : SyncState) : SyncState :=
  if cfg.prune != some false then
    let configModNames := cfg.mods.map (fun m => normName m.name)
    currentMods.foldl (fun st currentMod =>
      if configModNames.any (fun configName => hasSub (extractModBaseName currentMod) configName) then st
      else pruneRemove st currentMod) s
  else s

/-- `syncMods`: take the directory snapshot, run the pruning loop, then
process every manifest entry in order against that same snapshot. -/
def syncMods (env : Env) (cfg : ModpackConfig) (dir : List DirFile) : SyncState :=
  let currentMods := getCurrentMods dir
  let s1 := prunePass cfg currentMods { dir := dir, events := [] }
  cfg.mods.foldl (fun st mod => processModDownload env cfg mod currentMods st) s1

/-- Event classifier: a filesystem deletion (pruning or stale-variant). -/
def isDeletionEvent : SyncEvent → Bool
  | SyncEvent.pruneDelete _ => true
  | SyncEvent.staleDelete _ => true
  | _ => false

/-- Event classifier: an artifact download. -/
def isDownloadEvent : SyncEvent → Bool
  | SyncEvent.download _ _ => true
  | _ => false

/-- Event classifier: a deletion of the global pruning pass. -/
def isPruneDeleteEvent : SyncEvent → Bool
  | SyncEvent.pruneDelete _ => true
  | _ => false

/-- The manifest entry name carried by an `entryDone` event. -/
def entryNameOf : SyncEvent → Option String
  | SyncEvent.entryDone n _ => some n
  | _ => none

/-- Number of file deletions recorded in a trace. -/
def countDeletions (evs : List SyncEvent) : Nat := evs.countP (fun e => isDeletionEvent e)

/-- Number of downloads recorded in a trace. -/
def countDownloads (evs : List SyncEvent) : Nat := evs.countP (fun e => isDownloadEvent e)

/-- Names of the files of a directory listing. -/
def dirNames (dir : List DirFile) : List String := dir.map (fun f => f.name)

/-- `resolveEntry` outcome as a Boolean. -/
def resolvesOk (env : Env) (cfg : ModpackConfig) (mod : ModConfig) : Bool :=
  match resolveEntry env cfg mod with
  | Except.ok _ => true
  | Except.error _ => false

/-- The expected file name an entry resolves to (dummy value on failure). -/
def expectedFileNameOf (env : Env) (cfg : ModpackConfig) (mod : ModConfig) : String :=
  match resolveEntry env cfg mod with
  | Except.ok r => r.fileName
  | Except.error _ => ""

/-- The download URL an entry resolves to (dummy value on failure). -/
def downloadUrlOf (env : Env) (cfg : ModpackConfig) (mod : ModConfig) : String :=
  match resolveEntry env cfg mod with
  | Except.ok r => r.url
  | Except.error _ => ""

/-- Semantic version as the updater compares it (release tags of this
repository carry no prerelease identifiers). -/
structure SemV where
  major : Nat
  minor : Nat
  patch : Nat
deriving DecidableEq, Repr

/-- `greaterThan` of `@std/semver` on plain versions. -/
def semverGt (a b : SemV) : Bool :=
  if a.major ≠ b.major then decide (b.major < a.major)
  else if a.minor ≠ b.minor then decide (b.minor < a.minor)
  else decide (b.patch < a.patch)

/-- `APP_VERSION = "1.0.1"` parsed as a semantic version. -/
def appVersionSemver : SemV := { major := 1, minor := 0, patch := 1 }

/-- Observable events of the self-update sequence. -/
inductive UpdEvent where
  | checkedRelease
  | wasUpToDate
  | downloadedAsset (name : String)
  | removedTemp
  | renamedCurrentToOld
  | renamedTempToCurrent
  | restoredOldToCurrent
  | spawnedChild
deriving DecidableEq, Repr

/-- How `AutoUpdater.check` ends: skipped in dev mode, no-op because up to
date, restarted into the new binary, or warned and continued with the
current binary (the catch-all handler). -/
inductive UpdOutcome where
  | devSkipped
  | upToDate
  | restarted
  | warnedAndContinued (msg : String)
deriving DecidableEq, Repr

/-- Outcomes of the effectful steps of one update attempt: release fetch,
tag parse, platform-asset lookup, asset download, and the three renames of
the swap (`execPath → .old`, `.new → execPath`, `.old → execPath`). -/
structure UpdEnv where
  isDev : Bool
  releaseOk : Bool
  tagParses : Bool
  releaseTag : SemV
  assetFound : Bool
  assetName : String
  assetFetchOk : Bool
  rename1Ok : Bool
  rename2Ok : Bool
  restoreOk : Bool
deriving DecidableEq, Repr

/-- The raw filesystem error thrown by the unguarded restoration rename
`Deno.rename(oldPath, execPath)`; it propagates unwrapped. -/
def restoreRenameErrorMsg : String := "rename backup to original failed"

/-- `AutoUpdater.performUpdate`: download the platform asset to a temp
sibling, rename the current executable to the backup path, rename the temp
file into place (on failure: attempt the restoration rename, whose own
failure propagates as is), then spawn the new binary. -/
def performUpdate (env : UpdEnv) : List UpdEvent × Except String Unit :=
  if !env.assetFound then
    ([], Except.error "Asset no encontrado para esta plataforma")
  else if !env.assetFetchOk then
    ([], Except.error "Error descargando update")
  else if !env.rename1Ok then
    ([UpdEvent.downloadedAsset env.assetName, UpdEvent.removedTemp],
      Except.error "No se pudo renombrar el ejecutable actual")
  else if !env.rename2Ok then
    if env.restoreOk then
      ([UpdEvent.downloadedAsset env.assetName, UpdEvent.renamedCurrentToOld,
        UpdEvent.restoredOldToCurrent],
        Except.error "Error aplicando actualizacion")
    else
      ([UpdEvent.downloadedAsset env.assetName, UpdEvent.renamedCurrentToOld],
        Except.error restoreRenameErrorMsg)
  else
    ([UpdEvent.downloadedAsset env.assetName, UpdEvent.renamedCurrentToOld,
      UpdEvent.renamedTempToCurrent, UpdEvent.spawnedChild],
      Except.ok ())

/-- `AutoUpdater.check`: dev-mode bypass, release fetch, semantic-version
comparison, then `performUpdate`; the surrounding try/catch turns every
thrown update error into a logged warning and the program continues with
the current binary. -/
def check (env : UpdEnv) : List UpdEvent × UpdOutcome :=
  if env.isDev then ([], UpdOutcome.devSkipped)
  else if !env.releaseOk then ([], UpdOutcome.warnedAndContinued "GitHub API Error")
  else if !env.tagParses then ([UpdEvent.checkedRelease], UpdOutcome.warnedAndContinued "tag parse error")
  else if semverGt env.releaseTag appVersionSemver then
    let r := performUpdate env
    match r.snd with
    | Except.ok _ => (UpdEvent.checkedRelease :: r.fst, UpdOutcome.restarted)
    | Except.error e => (UpdEvent.checkedRelease :: r.fst, UpdOutcome.warnedAndContinued e)
  else ([UpdEvent.checkedRelease, UpdEvent.wasUpToDate], UpdOutcome.upToDate)

/-! ### Concrete instances used to exercise the model -/

/-- Environment in which every network request fails. -/
def envNoNetwork : Env where
  searchHits := fun _ => []
  projectVersions := fun _ => []
  fetchOk := fun _ => false
  fetchBody := fun _ => []

/-- Environment in which every download succeeds and delivers a well-formed
archive (ZIP local-file-header signature). -/
def envZipOk : Env where
  searchHits := fun _ => []
  projectVersions := fun _ => []
  fetchOk := fun _ => true
  fetchBody := fun _ => [0x50, 0x4B, 0x03, 0x04]

/-- Environment in which every download succeeds but delivers bytes that are
not an archive. -/
def envBadBody : Env where
  searchHits := fun _ => []
  projectVersions := fun _ => []
  fetchOk := fun _ => true
  fetchBody := fun _ => [1, 2, 3]

/-- Registry holding one compatible version labeled without `v` prefix. -/
def envRegistryBare : Env where
  searchHits := fun _ => []
  projectVersions := fun _ =>
    [{ game_versions := ["1.20.1"], loaders := ["fabric"], version_number := "1.5.0",
       files := [{ url := "u", filename := "m-1.5.0.jar" }] }]
  fetchOk := fun _ => false
  fetchBody := fun _ => []

/-- Registry holding one compatible version labeled with `v` prefix. -/
def envRegistryVPrefixed : Env where
  searchHits := fun _ => []
  projectVersions := fun _ =>
    [{ game_versions := ["1.20.1"], loaders := ["fabric"], version_number := "v1.5.0",
       files := [{ url := "u", filename := "m.jar" }] }]
  fetchOk := fun _ => false
  fetchBody := fun _ => []

/-- A fabric / 1.20.1 manifest with no entries. -/
def cfgPlain : ModpackConfig where
  modLoader := "fabric"
  gameVersion := "1.20.1"
  mods := []

/-- A registry entry pinned to `"v1.5.0"`. -/
def modVPin : ModConfig where
  name := "m"
  version := some "v1.5.0"
  source := some ModSource.modrinth
  projectId := some "p"

/-- A registry entry pinned to `"1.5.0"`. -/
def modPlainPin : ModConfig where
  name := "m"
  version := some "1.5.0"
  source := some ModSource.modrinth
  projectId := some "p"

/-- One direct-URL entry whose expected file is `zz.jar`. -/
def cfgPruneTrace : ModpackConfig where
  modLoader := "fabric"
  gameVersion := "1.20.1"
  mods := [{ name := "zz", source := some ModSource.url, downloadUrl := some "u",
             fileName := some "zz.jar" }]

/-- Two direct-URL entries whose base names overlap: `sodium` is a prefix of
the second entry's installed file name `sodium-extra-1.0.jar`. -/
def cfgOverlap : ModpackConfig where
  modLoader := "fabric"
  gameVersion := "1.20.1"
  mods := [
    { name := "sodium", source := some ModSource.url, downloadUrl := some "uA",
      fileName := some "sodium-0.5.8.jar" },
    { name := "sodium extra", source := some ModSource.url, downloadUrl := some "uB",
      fileName := some "sodium-extra-1.0.jar" }]

/-- Pruning disabled; the single entry's expected file name `qq.jar` is
unrelated to the entry's own base name `zz`. -/
def cfgOrphanCollision : ModpackConfig where
  modLoader := "fabric"
  gameVersion := "1.20.1"
  prune := some false
  mods := [{ name := "zz", source := some ModSource.url, downloadUrl := some "u",
             fileName := some "qq.jar" }]

/-- One direct-URL entry downloading to `bad.jar`. -/
def cfgBadJar : ModpackConfig where
  modLoader := "fabric"
  gameVersion := "1.20.1"
  mods := [{ name := "zz", source := some ModSource.url, downloadUrl := some "u",
             fileName := some "bad.jar" }]

/-- One direct-URL entry whose expected file name starts with and contains
its own base name. -/
def cfgSingle : ModpackConfig where
  modLoader := "fabric"
  gameVersion := "1.20.1"
  mods := [{ name := "zz", source := some ModSource.url, downloadUrl := some "u",
             fileName := some "zz-1.jar" }]

/-- Update attempt in which the newer release downloads fine, the first
rename succeeds, and both the second rename and the restoration rename
fail: the `RollbackFailed` condition of the specification. -/
def updEnvRollback : UpdEnv where
  isDev := false
  releaseOk := true
  tagParses := true
  releaseTag := { major := 9, minor := 9, patch := 9 }
  assetFound := true
  assetName := "a"
  assetFetchOk := true
  rename1Ok := true
  rename2Ok := false
  restoreOk := false

/-- Update check against a release feed whose latest tag `1.0.0` is lower
than the current version `1.0.1`. -/
def updEnvOldRelease : UpdEnv :=
  { updEnvRollback with releaseTag := { major := 1, minor := 0, patch := 0 } }

/-- The single entry of `cfgBadJar`. -/
def modBadJar : ModConfig where
  name := "zz"
  source := some ModSource.url
  downloadUrl := some "u"
  fileName := some "bad.jar"

/-! ### Helper lemmas -/

/-- Writing a name that is not yet present appends it, so the written file
is found afterwards with exactly the written body. -/
theorem findFile_writeFile_self (dir : List DirFile) (n : String) (b : List Nat)
    (h : findFile dir n = none) :
    findFile (writeFile dir n b) n = some { name := n, isFile := true, content := b } := by
  have hall := List.find?_eq_none.mp h
  have hany : (dir.any fun f => f.name == n) = false := by
    rw [← Bool.not_eq_true, List.any_eq_true]
    rintro ⟨f, hf, hp⟩
    exact hall f hf hp
  unfold writeFile
  rw [hany]
  simp only [Bool.false_eq_true, if_false]
  unfold findFile at h ⊢
  rw [List.find?_append, h]
  simp

/-! ### Claim theorems -/

/-- C8 (confirmed): a release whose parsed tag is not strictly greater
than the current version produces the up-to-date transcript and outcome:
no asset download, no rename and no restart occur. -/
theorem autoUpdater_no_downgrade (env : UpdEnv)
    (h1 : env.isDev = false) (h2 : env.releaseOk = true) (h3 : env.tagParses = true)
    (h4 : semverGt env.releaseTag appVersionSemver = false) :
    check env = ([UpdEvent.checkedRelease, UpdEvent.wasUpToDate], UpdOutcome.upToDate) := by
  unfold check
  rw [h1, h2, h3, h4]
  simp

/-- C8 witness: remote tag `1.0.0` against current version `1.0.1`. -/
theorem autoUpdater_no_downgrade_witness :
    semverGt updEnvOldRelease.releaseTag appVersionSemver = false ∧
    check updEnvOldRelease = ([UpdEvent.checkedRelease, UpdEvent.wasUpToDate], UpdOutcome.upToDate) :=
  ⟨by decide, autoUpdater_no_downgrade updEnvOldRelease rfl rfl rfl (by decide)⟩

/-- C1 counterexample: in the double-rename-failure state (the
specification's `RollbackFailed` condition) the updater produces the same
warn-and-continue outcome as an ordinary error (here: missing platform
asset), so the condition is absorbed by the catch-all handler rather than
surfaced as a distinct error state. -/
theorem autoUpdater_rollback_swallowed_cex :
    check updEnvRollback
      = ([UpdEvent.checkedRelease, UpdEvent.downloadedAsset "a", UpdEvent.renamedCurrentToOld],
         UpdOutcome.warnedAndContinued restoreRenameErrorMsg)
    ∧ check { updEnvRollback with assetFound := false }
      = ([UpdEvent.checkedRelease],
         UpdOutcome.warnedAndContinued "Asset no encontrado para esta plataforma") := by
  constructor <;> decide

/-- C1 (corrected): when the second rename fails and the restoration
rename also fails, the raw restoration error propagates out of
`performUpdate`, but `check` catches it like every other self-update error
and the program degrades to continuing with the current binary — no
distinct `RollbackFailed` state is surfaced. -/
theorem autoUpdater_rollback_degrades (env : UpdEnv)
    (h1 : env.isDev = false) (h2 : env.releaseOk = true) (h3 : env.tagParses = true)
    (h4 : semverGt env.releaseTag appVersionSemver = true)
    (h5 : env.assetFound = true) (h6 : env.assetFetchOk = true)
    (h7 : env.rename1Ok = true) (h8 : env.rename2Ok = false) (h9 : env.restoreOk = false) :
    (performUpdate env).snd = Except.error restoreRenameErrorMsg ∧
    (check env).snd = UpdOutcome.warnedAndContinued restoreRenameErrorMsg := by
  have hp : performUpdate env
      = ([UpdEvent.downloadedAsset env.assetName, UpdEvent.renamedCurrentToOld],
         Except.error restoreRenameErrorMsg) := by
    unfold performUpdate
    rw [h5, h6, h7, h8, h9]
    simp
  refine ⟨by rw [hp], ?_⟩
  unfold check
  rw [h1, h2, h3, h4, hp]
  simp

/-- C1 witness: the concrete rollback-failure run. -/
theorem autoUpdater_rollback_degrades_witness :
    (performUpdate updEnvRollback).snd = Except.error restoreRenameErrorMsg ∧
    (check updEnvRollback).snd = UpdOutcome.warnedAndContinued restoreRenameErrorMsg :=
  autoUpdater_rollback_degrades updEnvRollback rfl rfl rfl (by decide) rfl rfl rfl rfl rfl

/-- C2 counterexample: with one orphan (`qq.jar`) and one manifest entry
(`zz`, converged), the pruning deletion is the first event of the trace and
precedes the processing of every manifest entry, so the pruning pass is not
performed after the entries. -/
theorem syncMods_prunes_before_entries_cex :
    (syncMods envNoNetwork cfgPruneTrace
        [{ name := "zz.jar", isFile := true, content := [1] },
         { name := "qq.jar", isFile := true, content := [1] }]).events
      = [SyncEvent.pruneDelete "qq.jar", SyncEvent.entryDone "zz" EntryOutcome.kept] := by
  decide

/-- C3 counterexample: a download whose bytes fail validation leaves the
partial file `bad.jar` (content `[1, 2, 3]`) at the expected path; only the
entry's error event is recorded. -/
theorem syncMods_partial_file_remains_cex :
    syncMods envBadBody cfgBadJar []
      = { dir := [{ name := "bad.jar", isFile := true, content := [1, 2, 3] }],
          events := [SyncEvent.download "u" "bad.jar",
                     SyncEvent.entryDone "zz"
                       (EntryOutcome.errored "Archivo JAR invalido: No es un archivo JAR valido")] } := by
  decide

/-- C3 (corrected): on the live path an entry that reaches the download
step and fails validation reports the error for that entry only, but the
partial file is not deleted: it remains at the expected path with the
downloaded bytes. -/
theorem processModDownload_validation_failure (env : Env) (cfg : ModpackConfig) (mod : ModConfig)
    (s : SyncState) (r : ResolvedInfo) (e : String)
    (hres : resolveEntry env cfg mod = Except.ok r)
    (hmiss : findFile s.dir r.fileName = none)
    (hfetch : env.fetchOk r.url = true)
    (hval : (validateJarFile (writeFile s.dir r.fileName (env.fetchBody r.url)) r.fileName).fst
      = Except.error e) :
    processModDownload env cfg mod [] s
      = { dir := writeFile s.dir r.fileName (env.fetchBody r.url),
          events := s.events ++ [SyncEvent.download r.url r.fileName,
            SyncEvent.entryDone mod.name (EntryOutcome.errored e)] }
    ∧ findFile (processModDownload env cfg mod [] s).dir r.fileName
        = some { name := r.fileName, isFile := true, content := env.fetchBody r.url } := by
  have hmain : processModDownload env cfg mod [] s
      = { dir := writeFile s.dir r.fileName (env.fetchBody r.url),
          events := s.events ++ [SyncEvent.download r.url r.fileName,
            SyncEvent.entryDone mod.name (EntryOutcome.errored e)] } := by
    simp only [processModDownload, hres]
    rw [show stalePass (normName mod.name) r.fileName [] s = s from rfl]
    simp only [ensureInstalled, hmiss]
    simp only [downloadAndValidate, hfetch, if_true]
    simp only [hval]
    simp [List.append_assoc]
  refine ⟨hmain, ?_⟩
  rw [hmain]
  exact findFile_writeFile_self _ _ _ hmiss

/-- C3 witness: the concrete invalid-download run. -/
theorem processModDownload_validation_failure_witness :
    processModDownload envBadBody cfgBadJar modBadJar [] { dir := [], events := [] }
      = { dir := writeFile [] "bad.jar" (envBadBody.fetchBody "u"),
          events := [SyncEvent.download "u" "bad.jar",
            SyncEvent.entryDone "zz"
              (EntryOutcome.errored "Archivo JAR invalido: No es un archivo JAR valido")] }
    ∧ findFile (processModDownload envBadBody cfgBadJar modBadJar [] { dir := [], events := [] }).dir "bad.jar"
        = some { name := "bad.jar", isFile := true, content := envBadBody.fetchBody "u" } :=
  processModDownload_validation_failure envBadBody cfgBadJar modBadJar { dir := [], events := [] }
    { url := "u", version := "custom", fileName := "bad.jar" }
    "Archivo JAR invalido: No es un archivo JAR valido"
    (by decide) (by decide) (by decide) (by decide)

/-- C5 counterexample: with the overlapping entries `sodium` and
`sodium extra`, a second pass over the unchanged output of the first pass
(same environment, so every entry resolves to the same artifact) still
performs one stale deletion and one re-download. -/
theorem syncMods_second_run_not_noop_cex :
    countDeletions (syncMods envZipOk cfgOverlap (syncMods envZipOk cfgOverlap []).dir).events = 1 ∧
    countDownloads (syncMods envZipOk cfgOverlap (syncMods envZipOk cfgOverlap []).dir).events = 1 := by
  decide

/-- C6 counterexample: an entry pinned to `"v1.5.0"` fails to resolve
against a compatible registry version labeled `"1.5.0"`, although the claim
says the `v`-tolerance works on the pin side as well. -/
theorem getModrinthDownloadUrl_vpin_cex :
    getModrinthDownloadUrl envRegistryBare cfgPlain modVPin
      = Except.error "Error obteniendo URL de Modrinth para m: Version especifica v1.5.0 no encontrada" := by
  decide

/-- C6 (corrected): the pinned-version search succeeds exactly when some
compatible version's label is the pin itself, the pin with a `v`
prepended, or a label whose single leading `v` stripped equals the pin —
i.e. the tolerance applies to the registry side only.  In particular a pin
`"1.5.0"` resolves against a compatible registry version labeled
`"v1.5.0"`. -/
theorem findPinnedVersion_v_tolerance :
    (∀ (cfg : ModpackConfig) (versions : List RegVersion) (pin : String),
      (findPinnedVersion cfg versions pin).isSome = true ↔
        ∃ v ∈ versions, isCompatible cfg v = true ∧
          (v.version_number = pin ∨ v.version_number = "v" ++ pin
            ∨ stripLeadingV v.version_number = pin))
    ∧ getModrinthDownloadUrl envRegistryVPrefixed cfgPlain modPlainPin
        = Except.ok { url := "u", version := "v1.5.0", fileName := "m.jar" } := by
  constructor
  · intro cfg versions pin
    unfold findPinnedVersion
    cases h1 : versions.find? (fun v => isCompatible cfg v && v.version_number == pin) with
    | some v =>
      simp only [Option.isSome_some, true_iff]
      have hmem := List.mem_of_find?_eq_some h1
      have hp := List.find?_some h1
      simp only [Bool.and_eq_true, beq_iff_eq] at hp
      exact ⟨v, hmem, hp.1, Or.inl hp.2⟩
    | none =>
      have hnone := List.find?_eq_none.mp h1
      simp only [Option.isSome_iff_exists]
      constructor
      · rintro ⟨v, hv⟩
        have hmem := List.mem_of_find?_eq_some hv
        have hp := List.find?_some hv
        simp only [Bool.and_eq_true, Bool.or_eq_true, beq_iff_eq] at hp
        rcases hp.2 with h | h
        · exact ⟨v, hmem, hp.1, Or.inr (Or.inl h)⟩
        · exact ⟨v, hmem, hp.1, Or.inr (Or.inr h)⟩
      · rintro ⟨v, hmem, hcomp, hpin | hpin | hpin⟩
        · exfalso
          exact hnone v hmem (by simp [hcomp, hpin])
        · have : (versions.find? (fun v => isCompatible cfg v &&
              (v.version_number == "v" ++ pin || stripLeadingV v.version_number == pin))).isSome = true := by
            rw [List.find?_isSome]
            exact ⟨v, hmem, by simp [hcomp, hpin]⟩
          rcases Option.isSome_iff_exists.mp this with ⟨w, hw⟩
          exact ⟨w, hw⟩
        · have : (versions.find? (fun v => isCompatible cfg v &&
              (v.version_number == "v" ++ pin || stripLeadingV v.version_number == pin))).isSome = true := by
            rw [List.find?_isSome]
            exact ⟨v, hmem, by simp [hcomp, hpin]⟩
          rcases Option.isSome_iff_exists.mp this with ⟨w, hw⟩
          exact ⟨w, hw⟩
  · decide

/-- C7 counterexample: with pruning disabled, an empty orphan file whose
name happens to be the entry's expected file name is overwritten by the
entry's download — it is not left untouched. -/
theorem syncMods_orphan_touched_cex :
    syncMods envZipOk cfgOrphanCollision [{ name := "qq.jar", isFile := true, content := [] }]
      = { dir := [{ name := "qq.jar", isFile := true, content := [0x50, 0x4B, 0x03, 0x04] }],
          events := [SyncEvent.download "u" "qq.jar",
                     SyncEvent.entryDone "zz" EntryOutcome.installed] } := by
  decide

/-- C9 (confirmed): the validator never mutates the directory, and for an
existing file it succeeds exactly when the file is non-empty and the four
bytes read into the zero-initialized buffer equal the archive signature
`0x50 0x4B 0x03 0x04`. -/
theorem validateJarFile_spec (dir : List DirFile) (path : String) :
    (validateJarFile dir path).snd = dir ∧
    ∀ f, findFile dir path = some f →
      ((validateJarFile dir path).fst = Except.ok () ↔
        f.content ≠ [] ∧ f.content.getD 0 0 = 0x50 ∧ f.content.getD 1 0 = 0x4B
          ∧ f.content.getD 2 0 = 0x03 ∧ f.content.getD 3 0 = 0x04) := by
  constructor
  · unfold validateJarFile
    cases findFile dir path with
    | none => rfl
    | some f =>
      dsimp only
      split
      · rfl
      · split
        · rfl
        · rfl
  · intro f hf
    unfold validateJarFile
    rw [hf]
    dsimp only
    cases hc1 : (f.content.length == 0) with
    | true =>
      have hempty : f.content = [] := List.length_eq_zero.mp (by simpa using hc1)
      simp [hempty]
    | false =>
      have hne : f.content ≠ [] := by
        intro hcontra
        rw [hcontra] at hc1
        simp at hc1
      cases hc2 : (f.content.getD 0 0 != 0x50 || f.content.getD 1 0 != 0x4B
          || f.content.getD 2 0 != 0x03 || f.content.getD 3 0 != 0x04) with
      | true =>
        rw [if_neg Bool.false_ne_true, if_pos rfl]
        simp only [Bool.or_eq_true, bne_iff_ne] at hc2
        constructor
        · intro habs
          exact absurd habs (by simp)
        · rintro ⟨_, hb0, hb1, hb2, hb3⟩
          rcases hc2 with ((h | h) | h) | h
          · exact absurd hb0 h
          · exact absurd hb1 h
          · exact absurd hb2 h
          · exact absurd hb3 h
      | false =>
        rw [if_neg Bool.false_ne_true, if_neg Bool.false_ne_true]
        simp only [Bool.or_eq_false_iff, bne_eq_false_iff_eq] at hc2
        exact ⟨fun _ => ⟨hne, hc2.1.1.1, hc2.1.1.2, hc2.1.2, hc2.2⟩, fun _ => rfl⟩

/-- A singleton trace extension: `tryRemoveStale` appends one stale event
(successful deletion or caught failure). -/
theorem tryRemoveStale_events (s : SyncState) (c : String) :
    ∃ ev, (tryRemoveStale s c).events = s.events ++ [ev]
      ∧ isPruneDeleteEvent ev = false ∧ entryNameOf ev = none := by
  unfold tryRemoveStale
  split
  · exact ⟨SyncEvent.staleDelete c, rfl, rfl, rfl⟩
  · exact ⟨SyncEvent.staleDeleteFailed c, rfl, rfl, rfl⟩

/-- A stale-removal fold only appends stale events to the trace. -/
theorem foldStale_events (l : List String) (s : SyncState) :
    ∃ E, (l.foldl tryRemoveStale s).events = s.events ++ E
      ∧ ∀ e ∈ E, isPruneDeleteEvent e = false ∧ entryNameOf e = none := by
  induction l generalizing s with
  | nil => exact ⟨[], by simp, by simp⟩
  | cons c l ih =>
    obtain ⟨ev, hev, hp, hn⟩ := tryRemoveStale_events s c
    obtain ⟨E, hE, hprops⟩ := ih (tryRemoveStale s c)
    refine ⟨ev :: E, ?_, ?_⟩
    · rw [List.foldl_cons, hE, hev]
      simp
    · intro e he
      rcases List.mem_cons.mp he with rfl | he
      · exact ⟨hp, hn⟩
      · exact hprops e he

/-- `stalePass` only appends stale events to the trace. -/
theorem stalePass_events (b : List Char) (x : String) (cur : List String) (s : SyncState) :
    ∃ E, (stalePass b x cur s).events = s.events ++ E
      ∧ ∀ e ∈ E, isPruneDeleteEvent e = false ∧ entryNameOf e = none :=
  foldStale_events (cur.filter (fun current =>
    b.isPrefixOf (extractModBaseName current) && current != x)) s

/-- `downloadAndValidate` appends exactly one `entryDone` for its entry
and no pruning event. -/
theorem downloadAndValidate_events (env : Env) (mn : String) (tgt : ResolvedInfo) (s : SyncState) :
    ∃ E, (downloadAndValidate env mn tgt s).events = s.events ++ E
      ∧ E.filterMap entryNameOf = [mn]
      ∧ ∀ e ∈ E, isPruneDeleteEvent e = false := by
  unfold downloadAndValidate
  split
  · dsimp only
    split
    · refine ⟨[SyncEvent.download tgt.url tgt.fileName, SyncEvent.entryDone mn EntryOutcome.installed],
        by simp, rfl, ?_⟩
      intro e he
      rcases List.mem_cons.mp he with rfl | he
      · rfl
      · rcases List.mem_cons.mp he with rfl | he
        · rfl
        · cases he
    · rename_i e heq
      refine ⟨[SyncEvent.download tgt.url tgt.fileName, SyncEvent.entryDone mn (EntryOutcome.errored e)],
        by simp, rfl, ?_⟩
      intro e he
      rcases List.mem_cons.mp he with rfl | he
      · rfl
      · rcases List.mem_cons.mp he with rfl | he
        · rfl
        · cases he
  · refine ⟨[SyncEvent.entryDone mn (EntryOutcome.errored "Error descargando")], by simp, rfl, ?_⟩
    intro e he
    rcases List.mem_cons.mp he with rfl | he
    · rfl
    · cases he

/-- `ensureInstalled` appends exactly one `entryDone` for its entry and no
pruning event. -/
theorem ensureInstalled_events (env : Env) (mn : String) (tgt : ResolvedInfo) (s : SyncState) :
    ∃ E, (ensureInstalled env mn tgt s).events = s.events ++ E
      ∧ E.filterMap entryNameOf = [mn]
      ∧ ∀ e ∈ E, isPruneDeleteEvent e = false := by
  unfold ensureInstalled
  split
  · split
    · refine ⟨[SyncEvent.entryDone mn EntryOutcome.kept], by simp, rfl, ?_⟩
      intro e he
      rcases List.mem_cons.mp he with rfl | he
      · rfl
      · cases he
    · exact downloadAndValidate_events env mn tgt s
  · exact downloadAndValidate_events env mn tgt s

/-- `processModDownload` appends exactly one `entryDone` event naming its
entry, possibly preceded by stale events and a download — never a pruning
event — whatever the entry's outcome. -/
theorem processModDownload_events (env : Env) (cfg : ModpackConfig) (mod : ModConfig)
    (cur : List String) (s : SyncState) :
    ∃ E, (processModDownload env cfg mod cur s).events = s.events ++ E
      ∧ E.filterMap entryNameOf = [mod.name]
      ∧ ∀ e ∈ E, isPruneDeleteEvent e = false := by
  cases hres : resolveEntry env cfg mod with
  | error e =>
    simp only [processModDownload, hres]
    refine ⟨[SyncEvent.entryDone mod.name (EntryOutcome.errored e)], by simp, rfl, ?_⟩
    intro ev hev
    rcases List.mem_cons.mp hev with rfl | hev
    · rfl
    · cases hev
  | ok tgt =>
    simp only [processModDownload, hres]
    obtain ⟨E1, h1, hp1⟩ := stalePass_events (normName mod.name) tgt.fileName cur s
    obtain ⟨E2, h2, hf2, hp2⟩ :=
      ensureInstalled_events env mod.name tgt (stalePass (normName mod.name) tgt.fileName cur s)
    refine ⟨E1 ++ E2, ?_, ?_, ?_⟩
    · rw [h2, h1, List.append_assoc]
    · rw [List.filterMap_append, hf2]
      have hnil : E1.filterMap entryNameOf = [] :=
        List.filterMap_eq_nil_iff.mpr (fun e he => (hp1 e he).2)
      rw [hnil]
      rfl
    · intro e he
      rcases List.mem_append.mp he with he | he
      · exact (hp1 e he).1
      · exact hp2 e he

/-- The pruning fold only appends pruning deletions to the trace. -/
theorem foldPrune_events (names : List String) (cn : List (List Char)) (s : SyncState) :
    ∃ E, ((names.foldl (fun st currentMod =>
        if cn.any (fun configName => hasSub (extractModBaseName currentMod) configName) then st
        else pruneRemove st currentMod) s).events = s.events ++ E)
      ∧ ∀ e ∈ E, isPruneDeleteEvent e = true := by
  induction names generalizing s with
  | nil => exact ⟨[], by simp, by simp⟩
  | cons c l ih =>
    rw [List.foldl_cons]
    by_cases h : (cn.any fun configName => hasSub (extractModBaseName c) configName) = true
    · rw [if_pos h]
      exact ih s
    · rw [if_neg h]
      obtain ⟨E, hE, hp⟩ := ih (pruneRemove s c)
      refine ⟨SyncEvent.pruneDelete c :: E, ?_, ?_⟩
      · rw [hE]
        simp [pruneRemove]
      · intro e he
        rcases List.mem_cons.mp he with rfl | he
        · rfl
        · exact hp e he

/-- `prunePass` only appends pruning deletions to the trace. -/
theorem prunePass_events (cfg : ModpackConfig) (cur : List String) (s : SyncState) :
    ∃ E, (prunePass cfg cur s).events = s.events ++ E
      ∧ ∀ e ∈ E, isPruneDeleteEvent e = true := by
  unfold prunePass
  split
  · exact foldPrune_events cur (cfg.mods.map (fun m => normName m.name)) s
  · exact ⟨[], by simp, by simp⟩

/-- Folding `processModDownload` over a list of entries appends exactly one
`entryDone` per entry, in order, and no pruning event. -/
theorem foldEntries_events (env : Env) (cfg : ModpackConfig) (ms : List ModConfig)
    (cur : List String) (s : SyncState) :
    ∃ E, ((ms.foldl (fun st mod => processModDownload env cfg mod cur st) s).events = s.events ++ E)
      ∧ E.filterMap entryNameOf = ms.map (fun m => m.name)
      ∧ ∀ e ∈ E, isPruneDeleteEvent e = false := by
  induction ms generalizing s with
  | nil => exact ⟨[], by simp, rfl, by simp⟩
  | cons m ms ih =>
    obtain ⟨E1, h1, hf1, hp1⟩ := processModDownload_events env cfg m cur s
    obtain ⟨E2, h2, hf2, hp2⟩ := ih (processModDownload env cfg m cur s)
    refine ⟨E1 ++ E2, ?_, ?_, ?_⟩
    · rw [List.foldl_cons, h2, h1, List.append_assoc]
    · rw [List.filterMap_append, hf1, hf2]
      rfl
    · intro e he
      rcases List.mem_append.mp he with he | he
      · exact hp1 e he
      · exact hp2 e he

/-- A pruning event carries no entry name. -/
theorem entryNameOf_of_pruneDelete (e : SyncEvent) (h : isPruneDeleteEvent e = true) :
    entryNameOf e = none := by
  cases e <;> simp [isPruneDeleteEvent, entryNameOf] at h ⊢

/-- C4 (confirmed): every sync pass records exactly one `entryDone` event
per manifest entry, in manifest order — an error in one entry is absorbed
at that entry's boundary and every subsequent entry is still processed. -/
theorem syncMods_processes_every_entry (env : Env) (cfg : ModpackConfig) (dir : List DirFile) :
    ((syncMods env cfg dir).events.filterMap entryNameOf) = cfg.mods.map (fun m => m.name) := by
  unfold syncMods
  obtain ⟨P, hP, hPprune⟩ := prunePass_events cfg (getCurrentMods dir) { dir := dir, events := [] }
  obtain ⟨E, hE, hEf, _⟩ := foldEntries_events env cfg cfg.mods (getCurrentMods dir)
    (prunePass cfg (getCurrentMods dir) { dir := dir, events := [] })
  rw [hE, hP]
  have hPnil : P.filterMap entryNameOf = [] :=
    List.filterMap_eq_nil_iff.mpr (fun e he => entryNameOf_of_pruneDelete e (hPprune e he))
  simp only [List.nil_append, List.filterMap_append, hPnil, hEf]

/-- C2 (corrected): the trace of every sync pass splits into the pruning
deletions followed by the entry-processing events — the global pruning pass
runs before the manifest entries are processed, not after. -/
theorem syncMods_prune_precedes_entries (env : Env) (cfg : ModpackConfig) (dir : List DirFile) :
    ∃ P E, (syncMods env cfg dir).events = P ++ E
      ∧ (∀ e ∈ P, isPruneDeleteEvent e = true)
      ∧ (∀ e ∈ E, isPruneDeleteEvent e = false)
      ∧ E.filterMap entryNameOf = cfg.mods.map (fun m => m.name) := by
  unfold syncMods
  obtain ⟨P, hP, hPprune⟩ := prunePass_events cfg (getCurrentMods dir) { dir := dir, events := [] }
  obtain ⟨E, hE, hEf, hEp⟩ := foldEntries_events env cfg cfg.mods (getCurrentMods dir)
    (prunePass cfg (getCurrentMods dir) { dir := dir, events := [] })
  refine ⟨P, E, ?_, hPprune, hEp, hEf⟩
  rw [hE, hP]
  simp

/-- Membership of a listed name: it belongs to a regular file ending in
`.jar`. -/
theorem of_mem_getCurrentMods (dir : List DirFile) (c : String) (hc : c ∈ getCurrentMods dir) :
    ∃ f ∈ dir, f.name = c ∧ f.isFile = true ∧ strEndsWith c ".jar" = true := by
  unfold getCurrentMods at hc
  obtain ⟨f, hf, rfl⟩ := List.mem_map.mp hc
  obtain ⟨hmem, hcond⟩ := List.mem_filter.mp hf
  simp only [Bool.and_eq_true] at hcond
  exact ⟨f, hmem, rfl, hcond.1, hcond.2⟩

/-- A regular `.jar` file of the directory is listed. -/
theorem mem_getCurrentMods_of_file (dir : List DirFile) (f : DirFile) (hf : f ∈ dir)
    (hisfile : f.isFile = true) (hjar : strEndsWith f.name ".jar" = true) :
    f.name ∈ getCurrentMods dir := by
  unfold getCurrentMods
  exact List.mem_map_of_mem _ (List.mem_filter.mpr ⟨hf, by simp [hisfile, hjar]⟩)

/-- A starts-with match is in particular a substring match. -/
theorem hasSub_of_isPrefixOf (l sub : List Char) (h : sub.isPrefixOf l = true) :
    hasSub l sub = true := by
  cases l with
  | nil =>
    cases sub with
    | nil => rfl
    | cons c cs => simp [List.isPrefixOf] at h
  | cons c cs =>
    unfold hasSub
    rw [h]
    rfl

/-- Removing one name keeps every other file record. -/
theorem mem_removeName (d : List DirFile) (c : String) (f : DirFile)
    (hf : f ∈ d) (hne : f.name ≠ c) : f ∈ removeName d c :=
  List.mem_filter.mpr ⟨hf, by simp [hne]⟩

/-- Writing another name keeps every other file record. -/
theorem mem_writeFile (d : List DirFile) (x : String) (b : List Nat) (f : DirFile)
    (hf : f ∈ d) (hne : f.name ≠ x) : f ∈ writeFile d x b := by
  unfold writeFile
  split
  · apply List.mem_map.mpr
    refine ⟨f, hf, ?_⟩
    simp [hne]
  · exact List.mem_append_left _ hf

/-- Removing one name keeps every other name. -/
theorem mem_dirNames_removeName (d : List DirFile) (c n : String)
    (h : n ∈ dirNames d) (hne : n ≠ c) : n ∈ dirNames (removeName d c) := by
  obtain ⟨f, hf, rfl⟩ := List.mem_map.mp h
  exact List.mem_map_of_mem _ (mem_removeName d c f hf hne)

/-- A write never removes a name from the directory. -/
theorem mem_dirNames_writeFile (d : List DirFile) (x : String) (b : List Nat) (n : String)
    (h : n ∈ dirNames d) : n ∈ dirNames (writeFile d x b) := by
  unfold writeFile
  split
  · obtain ⟨f, hf, rfl⟩ := List.mem_map.mp h
    apply List.mem_map.mpr
    refine ⟨_, List.mem_map_of_mem _ hf, ?_⟩
    dsimp only
    split <;> rfl
  · unfold dirNames at h ⊢
    rw [List.map_append]
    exact List.mem_append_left _ h

/-- The guarded stale removal keeps every other file record. -/
theorem tryRemoveStale_preserves (s : SyncState) (c : String) (f : DirFile)
    (hf : f ∈ s.dir) (hne : f.name ≠ c) : f ∈ (tryRemoveStale s c).dir := by
  unfold tryRemoveStale
  split
  · exact mem_removeName s.dir c f hf hne
  · exact hf

/-- A stale-removal fold keeps every file whose name it does not visit. -/
theorem foldStale_preserves (l : List String) (s : SyncState) (f : DirFile)
    (hf : f ∈ s.dir) (hl : ∀ c ∈ l, f.name ≠ c) :
    f ∈ (l.foldl tryRemoveStale s).dir := by
  induction l generalizing s with
  | nil => exact hf
  | cons c l ih =>
    exact ih (tryRemoveStale s c)
      (tryRemoveStale_preserves s c f hf (hl c (by simp)))
      (fun d hd => hl d (by simp [hd]))

/-- The guarded stale removal keeps every other name. -/
theorem tryRemoveStale_names (s : SyncState) (c : String) (n : String)
    (hn : n ∈ dirNames s.dir) (hne : n ≠ c) : n ∈ dirNames (tryRemoveStale s c).dir := by
  unfold tryRemoveStale
  split
  · exact mem_dirNames_removeName s.dir c n hn hne
  · exact hn

/-- A stale-removal fold keeps every name it does not visit. -/
theorem foldStale_names (l : List String) (s : SyncState) (n : String)
    (hn : n ∈ dirNames s.dir) (hl : ∀ c ∈ l, n ≠ c) :
    n ∈ dirNames (l.foldl tryRemoveStale s).dir := by
  induction l generalizing s with
  | nil => exact hn
  | cons c l ih =>
    exact ih (tryRemoveStale s c)
      (tryRemoveStale_names s c n hn (hl c (by simp)))
      (fun d hd => hl d (by simp [hd]))

/-- Keep-or-download keeps every file record with a different name. -/
theorem downloadAndValidate_preserves (env : Env) (mn : String) (tgt : ResolvedInfo)
    (s : SyncState) (f : DirFile) (hf : f ∈ s.dir) (hne : f.name ≠ tgt.fileName) :
    f ∈ (downloadAndValidate env mn tgt s).dir := by
  unfold downloadAndValidate
  split
  · dsimp only
    split
    · exact mem_writeFile s.dir tgt.fileName (env.fetchBody tgt.url) f hf hne
    · exact mem_writeFile s.dir tgt.fileName (env.fetchBody tgt.url) f hf hne
  · exact hf

/-- Step 3 keeps every file record with a different name. -/
theorem ensureInstalled_preserves (env : Env) (mn : String) (tgt : ResolvedInfo)
    (s : SyncState) (f : DirFile) (hf : f ∈ s.dir) (hne : f.name ≠ tgt.fileName) :
    f ∈ (ensureInstalled env mn tgt s).dir := by
  unfold ensureInstalled
  split
  · split
    · exact hf
    · exact downloadAndValidate_preserves env mn tgt s f hf hne
  · exact downloadAndValidate_preserves env mn tgt s f hf hne

/-- Keep-or-download never removes a name. -/
theorem downloadAndValidate_names (env : Env) (mn : String) (tgt : ResolvedInfo)
    (s : SyncState) (n : String) (hn : n ∈ dirNames s.dir) :
    n ∈ dirNames (downloadAndValidate env mn tgt s).dir := by
  unfold downloadAndValidate
  split
  · dsimp only
    split
    · exact mem_dirNames_writeFile s.dir tgt.fileName (env.fetchBody tgt.url) n hn
    · exact mem_dirNames_writeFile s.dir tgt.fileName (env.fetchBody tgt.url) n hn
  · exact hn

/-- Step 3 never removes a name. -/
theorem ensureInstalled_names (env : Env) (mn : String) (tgt : ResolvedInfo)
    (s : SyncState) (n : String) (hn : n ∈ dirNames s.dir) :
    n ∈ dirNames (ensureInstalled env mn tgt s).dir := by
  unfold ensureInstalled
  split
  · split
    · exact hn
    · exact downloadAndValidate_names env mn tgt s n hn
  · exact downloadAndValidate_names env mn tgt s n hn

/-- One entry keeps every file record that is neither a stale candidate of
the entry nor its expected file. -/
theorem processModDownload_preserves (env : Env) (cfg : ModpackConfig) (mod : ModConfig)
    (cur : List String) (s : SyncState) (f : DirFile)
    (hf : f ∈ s.dir)
    (hsafe : ∀ r, resolveEntry env cfg mod = Except.ok r →
      (normName mod.name).isPrefixOf (extractModBaseName f.name) = false ∧ f.name ≠ r.fileName) :
    f ∈ (processModDownload env cfg mod cur s).dir := by
  cases hres : resolveEntry env cfg mod with
  | error e =>
    simp only [processModDownload, hres]
    exact hf
  | ok r =>
    simp only [processModDownload, hres]
    obtain ⟨hpre, hne⟩ := hsafe r hres
    apply ensureInstalled_preserves
    · apply foldStale_preserves _ _ _ hf
      intro c hc hceq
      obtain ⟨_, hcond⟩ := List.mem_filter.mp hc
      rw [← hceq] at hcond
      simp only [Bool.and_eq_true] at hcond
      rw [hpre] at hcond
      exact Bool.false_ne_true hcond.1
    · exact hne

/-- One entry never removes a name outside the run-start listing. -/
theorem processModDownload_names (env : Env) (cfg : ModpackConfig) (mod : ModConfig)
    (cur : List String) (s : SyncState) (n : String)
    (hn : n ∈ dirNames s.dir) (hcur : ∀ c ∈ cur, n ≠ c) :
    n ∈ dirNames (processModDownload env cfg mod cur s).dir := by
  cases hres : resolveEntry env cfg mod with
  | error e =>
    simp only [processModDownload, hres]
    exact hn
  | ok r =>
    simp only [processModDownload, hres]
    apply ensureInstalled_names
    apply foldStale_names _ _ _ hn
    intro c hc
    exact hcur c (List.mem_filter.mp hc).1

/-- The entry fold keeps every file record that is safe for every entry. -/
theorem foldEntries_preserves (env : Env) (cfg : ModpackConfig) (ms : List ModConfig)
    (cur : List String) (s : SyncState) (f : DirFile)
    (hf : f ∈ s.dir)
    (hsafe : ∀ m ∈ ms, ∀ r, resolveEntry env cfg m = Except.ok r →
      (normName m.name).isPrefixOf (extractModBaseName f.name) = false ∧ f.name ≠ r.fileName) :
    f ∈ ((ms.foldl (fun st mod => processModDownload env cfg mod cur st) s)).dir := by
  induction ms generalizing s with
  | nil => exact hf
  | cons m ms ih =>
    exact ih (processModDownload env cfg m cur s)
      (processModDownload_preserves env cfg m cur s f hf (hsafe m (by simp)))
      (fun m2 hm2 => hsafe m2 (by simp [hm2]))

/-- The entry fold never removes a name outside the run-start listing. -/
theorem foldEntries_names (env : Env) (cfg : ModpackConfig) (ms : List ModConfig)
    (cur : List String) (s : SyncState) (n : String)
    (hn : n ∈ dirNames s.dir) (hcur : ∀ c ∈ cur, n ≠ c) :
    n ∈ dirNames ((ms.foldl (fun st mod => processModDownload env cfg mod cur st) s)).dir := by
  induction ms generalizing s with
  | nil => exact hn
  | cons m ms ih =>
    exact ih (processModDownload env cfg m cur s)
      (processModDownload_names env cfg m cur s n hn hcur)

/-- The pruning fold keeps every file whose name it does not visit. -/
theorem foldPrune_preserves (names : List String) (cn : List (List Char)) (s : SyncState)
    (f : DirFile) (hf : f ∈ s.dir) (hl : ∀ c ∈ names, f.name ≠ c) :
    f ∈ ((names.foldl (fun st currentMod =>
        if cn.any (fun configName => hasSub (extractModBaseName currentMod) configName) then st
        else pruneRemove st currentMod) s)).dir := by
  induction names generalizing s with
  | nil => exact hf
  | cons c l ih =>
    rw [List.foldl_cons]
    by_cases h : (cn.any fun configName => hasSub (extractModBaseName c) configName) = true
    · rw [if_pos h]
      exact ih s hf (fun d hd => hl d (by simp [hd]))
    · rw [if_neg h]
      exact ih (pruneRemove s c)
        (mem_removeName s.dir c f hf (hl c (by simp)))
        (fun d hd => hl d (by simp [hd]))

/-- The pruning fold never removes a name it does not visit. -/
theorem foldPrune_names (names : List String) (cn : List (List Char)) (s : SyncState)
    (n : String) (hn : n ∈ dirNames s.dir) (hl : ∀ c ∈ names, n ≠ c) :
    n ∈ dirNames ((names.foldl (fun st currentMod =>
        if cn.any (fun configName => hasSub (extractModBaseName currentMod) configName) then st
        else pruneRemove st currentMod) s)).dir := by
  induction names generalizing s with
  | nil => exact hn
  | cons c l ih =>
    rw [List.foldl_cons]
    by_cases h : (cn.any fun configName => hasSub (extractModBaseName c) configName) = true
    · rw [if_pos h]
      exact ih s hn (fun d hd => hl d (by simp [hd]))
    · rw [if_neg h]
      exact ih (pruneRemove s c)
        (mem_dirNames_removeName s.dir c n hn (hl c (by simp)))
        (fun d hd => hl d (by simp [hd]))

/-- The pruning fold records a deletion for every visited name matching no
entry's base name. -/
theorem foldPrune_emits (names : List String) (cn : List (List Char)) (s : SyncState)
    (c : String) (hc : c ∈ names)
    (hno : (cn.any fun configName => hasSub (extractModBaseName c) configName) = false) :
    SyncEvent.pruneDelete c ∈ ((names.foldl (fun st currentMod =>
        if cn.any (fun configName => hasSub (extractModBaseName currentMod) configName) then st
        else pruneRemove st currentMod) s)).events := by
  induction names generalizing s with
  | nil => cases hc
  | cons d l ih =>
    rw [List.foldl_cons]
    rcases List.mem_cons.mp hc with rfl | hc
    · rw [if_neg (by simp [hno])]
      obtain ⟨E, hE, _⟩ := foldPrune_events l cn (pruneRemove s c)
      rw [hE]
      apply List.mem_append_left
      simp [pruneRemove]
    · by_cases h : (cn.any fun configName => hasSub (extractModBaseName d) configName) = true
      · rw [if_pos h]
        exact ih s hc
      · rw [if_neg h]
        exact ih (pruneRemove s d) hc

/-- C10 (confirmed): every deletion of a sync pass takes its candidates
from the run-start directory listing, which only contains regular files
ending in `.jar`; hence a directory file whose name does not end in `.jar`
is never deleted — its name is still present after the pass, whatever the
manifest and the prune setting. -/
theorem syncMods_never_deletes_non_jar (env : Env) (cfg : ModpackConfig) (dir : List DirFile)
    (n : String) (hmem : n ∈ dirNames dir) (hjar : strEndsWith n ".jar" = false) :
    n ∈ dirNames (syncMods env cfg dir).dir := by
  have hcur : ∀ c ∈ getCurrentMods dir, n ≠ c := by
    intro c hc heq
    obtain ⟨f, _, _, _, hcjar⟩ := of_mem_getCurrentMods dir c hc
    rw [← heq] at hcjar
    rw [hjar] at hcjar
    exact Bool.false_ne_true hcjar
  unfold syncMods
  apply foldEntries_names
  · unfold prunePass
    split
    · exact foldPrune_names (getCurrentMods dir) (cfg.mods.map (fun m => normName m.name))
        { dir := dir, events := [] } n hmem hcur
    · exact hmem
  · exact hcur

/-- C10 witness: a `notes.txt` file survives a pruning pass that deletes
the orphan jar next to it. -/
theorem syncMods_never_deletes_non_jar_witness :
    "notes.txt" ∈ dirNames
      (syncMods envNoNetwork cfgPruneTrace
        [{ name := "zz.jar", isFile := true, content := [1] },
         { name := "notes.txt", isFile := true, content := [7] }]).dir :=
  syncMods_never_deletes_non_jar envNoNetwork cfgPruneTrace
    [{ name := "zz.jar", isFile := true, content := [1] },
     { name := "notes.txt", isFile := true, content := [7] }]
    "notes.txt" (by decide) (by decide)

/-- C7 (corrected): for a listed file whose base name contains no entry's
base name (an orphan), the pruning pass deletes it whenever `prune` is not
`false` (in particular when absent); when `prune = false` and additionally
the orphan's name is not the expected file name of any entry, the file is
left untouched (the identical record is still in the directory).  The side
condition is forced: an empty orphan whose name coincides with an entry's
expected file name is overwritten by that entry's download. -/
theorem syncMods_pruning_toggle (env : Env) (cfg : ModpackConfig) (dir : List DirFile)
    (f : DirFile) (hf : f ∈ dir)
    (horphan : ∀ m ∈ cfg.mods, hasSub (extractModBaseName f.name) (normName m.name) = false) :
    (cfg.prune ≠ some false → f.isFile = true → strEndsWith f.name ".jar" = true →
      SyncEvent.pruneDelete f.name ∈ (syncMods env cfg dir).events)
    ∧ (cfg.prune = some false →
        (∀ m ∈ cfg.mods, ∀ r, resolveEntry env cfg m = Except.ok r → r.fileName ≠ f.name) →
        f ∈ (syncMods env cfg dir).dir) := by
  constructor
  · intro hprune hisfile hjar
    have hcur : f.name ∈ getCurrentMods dir := mem_getCurrentMods_of_file dir f hf hisfile hjar
    have hno : ((cfg.mods.map (fun m => normName m.name)).any
        fun configName => hasSub (extractModBaseName f.name) configName) = false := by
      rw [← Bool.not_eq_true, List.any_eq_true]
      rintro ⟨b, hb, hsub⟩
      obtain ⟨m, hm, rfl⟩ := List.mem_map.mp hb
      rw [horphan m hm] at hsub
      exact Bool.false_ne_true hsub
    unfold syncMods
    obtain ⟨E, hE, _⟩ := foldEntries_events env cfg cfg.mods (getCurrentMods dir)
      (prunePass cfg (getCurrentMods dir) { dir := dir, events := [] })
    rw [hE]
    apply List.mem_append_left
    unfold prunePass
    rw [if_pos (by simp [bne_iff_ne, hprune])]
    exact foldPrune_emits (getCurrentMods dir) (cfg.mods.map (fun m => normName m.name))
      { dir := dir, events := [] } f.name hcur hno
  · intro hprune hexp
    unfold syncMods
    dsimp only
    have hs1 : prunePass cfg (getCurrentMods dir) { dir := dir, events := [] }
        = { dir := dir, events := [] } := by
      unfold prunePass
      rw [if_neg (by simp [hprune])]
    rw [hs1]
    apply foldEntries_preserves env cfg cfg.mods (getCurrentMods dir) { dir := dir, events := [] } f hf
    intro m hm r hr
    constructor
    · rw [← Bool.not_eq_true]
      intro hpre
      have := hasSub_of_isPrefixOf (extractModBaseName f.name) (normName m.name) hpre
      rw [horphan m hm] at this
      exact Bool.false_ne_true this
    · exact fun hfl => hexp m hm r hr hfl.symm

/-- C7 witness: with pruning enabled by default (absent), the orphan
`qq.jar` is removed by the pruning pass. -/
theorem syncMods_pruning_toggle_witness :
    SyncEvent.pruneDelete "qq.jar" ∈
      (syncMods envNoNetwork cfgPruneTrace
        [{ name := "zz.jar", isFile := true, content := [1] },
         { name := "qq.jar", isFile := true, content := [1] }]).events :=
  (syncMods_pruning_toggle envNoNetwork cfgPruneTrace
      [{ name := "zz.jar", isFile := true, content := [1] },
       { name := "qq.jar", isFile := true, content := [1] }]
      { name := "qq.jar", isFile := true, content := [1] }
      (by decide) (by decide)).1 (by decide) rfl (by decide)

/-- C9 witness: a non-empty file starting with the archive signature
passes, and the directory is unchanged. -/
theorem validateJarFile_spec_witness :
    (validateJarFile [{ name := "a.jar", isFile := true, content := [0x50, 0x4B, 0x03, 0x04, 9] }] "a.jar").snd
      = [{ name := "a.jar", isFile := true, content := [0x50, 0x4B, 0x03, 0x04, 9] }] ∧
    (validateJarFile [{ name := "a.jar", isFile := true, content := [0x50, 0x4B, 0x03, 0x04, 9] }] "a.jar").fst
      = Except.ok () := by
  have h := validateJarFile_spec
    [{ name := "a.jar", isFile := true, content := [0x50, 0x4B, 0x03, 0x04, 9] }] "a.jar"
  refine ⟨h.1, ?_⟩
  exact (h.2 { name := "a.jar", isFile := true, content := [0x50, 0x4B, 0x03, 0x04, 9] } (by decide)).mpr
    (by refine ⟨by decide, rfl, rfl, rfl, rfl⟩)


/-- Resolution equations for a successfully resolved entry. -/
theorem expectedFileNameOf_eq (env : Env) (cfg : ModpackConfig) (mod : ModConfig)
    (r : ResolvedInfo) (h : resolveEntry env cfg mod = Except.ok r) :
    expectedFileNameOf env cfg mod = r.fileName := by
  unfold expectedFileNameOf
  rw [h]

/-- The resolved download URL of a successfully resolved entry. -/
theorem downloadUrlOf_eq (env : Env) (cfg : ModpackConfig) (mod : ModConfig)
    (r : ResolvedInfo) (h : resolveEntry env cfg mod = Except.ok r) :
    downloadUrlOf env cfg mod = r.url := by
  unfold downloadUrlOf
  rw [h]

/-- A positively resolving entry has a resolution value. -/
theorem exists_resolved_of_resolvesOk (env : Env) (cfg : ModpackConfig) (mod : ModConfig)
    (h : resolvesOk env cfg mod = true) :
    ∃ r, resolveEntry env cfg mod = Except.ok r := by
  unfold resolvesOk at h
  cases hres : resolveEntry env cfg mod with
  | ok r => exact ⟨r, rfl⟩
  | error e => rw [hres] at h; cases h

/-- `findFile` returns a member carrying the requested name. -/
theorem findFile_mem (d : List DirFile) (n : String) (f : DirFile)
    (h : findFile d n = some f) : f ∈ d ∧ f.name = n := by
  unfold findFile at h
  have hp := List.find?_some h
  exact ⟨List.mem_of_find?_eq_some h, eq_of_beq (show (f.name == n) = true from hp)⟩

/-- With duplicate-free names, `findFile` finds exactly the member. -/
theorem findFile_eq_of_nodup (d : List DirFile) (f : DirFile)
    (hnodup : (dirNames d).Nodup) (hf : f ∈ d) : findFile d f.name = some f := by
  induction d with
  | nil => cases hf
  | cons g d ih =>
    rcases List.mem_cons.mp hf with rfl | hf
    · unfold findFile
      rw [List.find?_cons_of_pos _ (by simp)]
    · have hne : (g.name == f.name) = false := by
        rw [beq_eq_false_iff_ne]
        intro heq
        have hg : g.name ∈ dirNames d := by
          rw [heq]
          exact List.mem_map_of_mem _ hf
        have := List.nodup_cons.mp hnodup
        exact this.1 hg
      unfold findFile
      rw [List.find?_cons_of_neg _ (by simp [hne])]
      exact ih (List.nodup_cons.mp hnodup).2 hf

/-- Removing a name removes every occurrence of it. -/
theorem not_mem_dirNames_removeName (d : List DirFile) (c : String) :
    c ∉ dirNames (removeName d c) := by
  intro h
  obtain ⟨f, hf, heq⟩ := List.mem_map.mp h
  have hcond := (List.mem_filter.mp hf).2
  rw [heq] at hcond
  simp at hcond

/-- Names after a removal come from before it. -/
theorem dirNames_removeName_subset (d : List DirFile) (c n : String)
    (h : n ∈ dirNames (removeName d c)) : n ∈ dirNames d := by
  obtain ⟨f, hf, rfl⟩ := List.mem_map.mp h
  exact List.mem_map_of_mem _ (List.mem_filter.mp hf).1

/-- Names after a guarded stale removal come from before it. -/
theorem tryRemoveStale_names_subset (s : SyncState) (c n : String)
    (h : n ∈ dirNames (tryRemoveStale s c).dir) : n ∈ dirNames s.dir := by
  unfold tryRemoveStale at h
  split at h
  · exact dirNames_removeName_subset s.dir c n h
  · exact h

/-- Names after a stale-removal fold come from before it. -/
theorem foldStale_names_subset (l : List String) (s : SyncState) (n : String)
    (h : n ∈ dirNames (l.foldl tryRemoveStale s).dir) : n ∈ dirNames s.dir := by
  induction l generalizing s with
  | nil => exact h
  | cons c l ih => exact tryRemoveStale_names_subset s c n (ih (tryRemoveStale s c) h)

/-- The directory after a guarded stale removal is a sublist. -/
theorem tryRemoveStale_dir_sublist (s : SyncState) (c : String) :
    List.Sublist (tryRemoveStale s c).dir s.dir := by
  unfold tryRemoveStale
  split
  · exact List.filter_sublist s.dir
  · exact List.Sublist.refl s.dir

/-- The directory after a stale-removal fold is a sublist. -/
theorem foldStale_dir_sublist (l : List String) (s : SyncState) :
    List.Sublist (l.foldl tryRemoveStale s).dir s.dir := by
  induction l generalizing s with
  | nil => exact List.Sublist.refl s.dir
  | cons c l ih =>
    exact List.Sublist.trans (ih (tryRemoveStale s c)) (tryRemoveStale_dir_sublist s c)

/-- The directory after the pruning fold is a sublist. -/
theorem foldPrune_dir_sublist (names : List String) (cn : List (List Char)) (s : SyncState) :
    List.Sublist ((names.foldl (fun st currentMod =>
        if cn.any (fun configName => hasSub (extractModBaseName currentMod) configName) then st
        else pruneRemove st currentMod) s)).dir s.dir := by
  induction names generalizing s with
  | nil => exact List.Sublist.refl s.dir
  | cons c l ih =>
    rw [List.foldl_cons]
    by_cases h : (cn.any fun configName => hasSub (extractModBaseName c) configName) = true
    · rw [if_pos h]
      exact ih s
    · rw [if_neg h]
      exact List.Sublist.trans (ih (pruneRemove s c)) (List.filter_sublist s.dir)

/-- The directory after `prunePass` is a sublist. -/
theorem prunePass_dir_sublist (cfg : ModpackConfig) (cur : List String) (s : SyncState) :
    List.Sublist (prunePass cfg cur s).dir s.dir := by
  unfold prunePass
  split
  · exact foldPrune_dir_sublist cur (cfg.mods.map (fun m => normName m.name)) s
  · exact List.Sublist.refl s.dir

/-- A listed survivor of the pruning fold matched some entry's base name
whenever the fold visited its name. -/
theorem foldPrune_survivor (names : List String) (cn : List (List Char)) (s : SyncState)
    (n : String)
    (h : n ∈ dirNames ((names.foldl (fun st currentMod =>
        if cn.any (fun configName => hasSub (extractModBaseName currentMod) configName) then st
        else pruneRemove st currentMod) s)).dir) :
    n ∈ dirNames s.dir ∧
      ∀ c ∈ names, c = n → (cn.any fun configName => hasSub (extractModBaseName c) configName) = true := by
  induction names generalizing s with
  | nil =>
    refine ⟨h, ?_⟩
    intro c hc
    cases hc
  | cons c l ih =>
    rw [List.foldl_cons] at h
    by_cases hc : (cn.any fun configName => hasSub (extractModBaseName c) configName) = true
    · rw [if_pos hc] at h
      obtain ⟨h1, h2⟩ := ih s h
      refine ⟨h1, ?_⟩
      intro d hd hdn
      rcases List.mem_cons.mp hd with rfl | hd
      · exact hc
      · exact h2 d hd hdn
    · rw [if_neg hc] at h
      obtain ⟨h1, h2⟩ := ih (pruneRemove s c) h
      have h1' : n ∈ dirNames s.dir := dirNames_removeName_subset s.dir c n h1
      have hnc : n ≠ c := by
        intro heq
        rw [heq] at h1
        exact not_mem_dirNames_removeName s.dir c h1
      refine ⟨h1', ?_⟩
      intro d hd hdn
      rcases List.mem_cons.mp hd with rfl | hd
      · exact absurd hdn (fun hh => hnc hh.symm)
      · exact h2 d hd hdn

/-- A pruning survivor listed at the start matched some entry's base name. -/
theorem prunePass_survivor (cfg : ModpackConfig) (cur : List String) (s : SyncState)
    (n : String) (hp : cfg.prune ≠ some false)
    (h : n ∈ dirNames (prunePass cfg cur s).dir) (hcur : n ∈ cur) :
    ((cfg.mods.map (fun m => normName m.name)).any
      fun configName => hasSub (extractModBaseName n) configName) = true := by
  unfold prunePass at h
  rw [if_pos (by simp [bne_iff_ne, hp])] at h
  exact (foldPrune_survivor cur (cfg.mods.map (fun m => normName m.name))
    { dir := s.dir, events := s.events } n (by exact h)).2 n hcur rfl

/-- Writing leaves a name behind only if it was there or is the target. -/
theorem writeFile_name_provenance (d : List DirFile) (x : String) (b : List Nat) (n : String)
    (h : n ∈ dirNames (writeFile d x b)) : n ∈ dirNames d ∨ n = x := by
  unfold writeFile at h
  split at h
  · left
    obtain ⟨g2, hg2, heq⟩ := List.mem_map.mp h
    obtain ⟨g, hg, rfl⟩ := List.mem_map.mp hg2
    rw [← heq]
    have : ((if g.name == x then { g with isFile := true, content := b ++ g.content.drop b.length } else g) : DirFile).name = g.name := by
      split <;> rfl
    rw [this]
    exact List.mem_map_of_mem _ hg
  · unfold dirNames at h
    rw [List.map_append] at h
    rcases List.mem_append.mp h with h | h
    · exact Or.inl h
    · right
      simpa using h

/-- A write keeps the all-regular-files invariant. -/
theorem writeFile_isFile (d : List DirFile) (x : String) (b : List Nat)
    (hd : ∀ f ∈ d, f.isFile = true) : ∀ f ∈ writeFile d x b, f.isFile = true := by
  unfold writeFile
  split
  · intro f hf
    obtain ⟨g, hg, rfl⟩ := List.mem_map.mp hf
    cases hgx : (g.name == x) with
    | true => simp [hgx]
    | false => simp [hgx, hd g hg]
  · intro f hf
    rcases List.mem_append.mp hf with hf | hf
    · exact hd f hf
    · rw [List.mem_singleton] at hf
      rw [hf]

/-- Writing an already-present name keeps the name list unchanged. -/
theorem dirNames_writeFile_of_any (d : List DirFile) (x : String) (b : List Nat)
    (h : (d.any fun f => f.name == x) = true) :
    dirNames (writeFile d x b) = dirNames d := by
  unfold writeFile
  rw [if_pos h]
  unfold dirNames
  rw [List.map_map]
  apply List.map_congr_left
  intro f _
  simp only [Function.comp_apply]
  split <;> rfl

/-- A write keeps names duplicate-free. -/
theorem writeFile_nodup (d : List DirFile) (x : String) (b : List Nat)
    (h : (dirNames d).Nodup) : (dirNames (writeFile d x b)).Nodup := by
  by_cases hany : (d.any fun f => f.name == x) = true
  · rw [dirNames_writeFile_of_any d x b hany]
    exact h
  · unfold writeFile
    rw [if_neg hany]
    unfold dirNames
    rw [List.map_append, List.nodup_append]
    refine ⟨h, by simp, ?_⟩
    intro a ha hb
    simp only [List.map_cons, List.map_nil, List.mem_singleton] at hb
    subst hb
    apply hany
    rw [List.any_eq_true]
    obtain ⟨f, hf, rfl⟩ := List.mem_map.mp ha
    exact ⟨f, hf, by simp⟩


/-- The guarded stale removal of a name removes every record of it. -/
theorem tryRemoveStale_removes (s : SyncState) (c : String) :
    c ∉ dirNames (tryRemoveStale s c).dir := by
  unfold tryRemoveStale
  split
  · exact not_mem_dirNames_removeName s.dir c
  · rename_i hany
    intro hmem
    apply hany
    rw [List.any_eq_true]
    obtain ⟨f, hf, rfl⟩ := List.mem_map.mp hmem
    exact ⟨f, hf, by simp⟩

/-- The stale-removal fold removes every visited name for good. -/
theorem foldStale_removes (l : List String) (s : SyncState) (c : String) (hc : c ∈ l) :
    c ∉ dirNames (l.foldl tryRemoveStale s).dir := by
  induction l generalizing s with
  | nil => cases hc
  | cons d l ih =>
    rcases List.mem_cons.mp hc with rfl | hc
    · intro hmem
      exact tryRemoveStale_removes s c (foldStale_names_subset l (tryRemoveStale s c) c hmem)
    · exact ih (tryRemoveStale s d) hc

/-- Keep-or-download leaves a name behind only if it was there or is the
entry's expected file name. -/
theorem downloadAndValidate_name_provenance (env : Env) (mn : String) (tgt : ResolvedInfo)
    (s : SyncState) (n : String)
    (h : n ∈ dirNames (downloadAndValidate env mn tgt s).dir) :
    n ∈ dirNames s.dir ∨ n = tgt.fileName := by
  unfold downloadAndValidate at h
  split at h
  · dsimp only at h
    split at h
    · exact writeFile_name_provenance s.dir tgt.fileName (env.fetchBody tgt.url) n h
    · exact writeFile_name_provenance s.dir tgt.fileName (env.fetchBody tgt.url) n h
  · exact Or.inl h

/-- Step 3 leaves a name behind only if it was there or is the entry's
expected file name. -/
theorem ensureInstalled_name_provenance (env : Env) (mn : String) (tgt : ResolvedInfo)
    (s : SyncState) (n : String)
    (h : n ∈ dirNames (ensureInstalled env mn tgt s).dir) :
    n ∈ dirNames s.dir ∨ n = tgt.fileName := by
  unfold ensureInstalled at h
  split at h
  · split at h
    · exact Or.inl h
    · exact downloadAndValidate_name_provenance env mn tgt s n h
  · exact downloadAndValidate_name_provenance env mn tgt s n h

/-- One entry leaves a name behind only if it was there or is the entry's
resolved expected file name. -/
theorem processModDownload_name_provenance (env : Env) (cfg : ModpackConfig) (mod : ModConfig)
    (cur : List String) (s : SyncState) (n : String)
    (h : n ∈ dirNames (processModDownload env cfg mod cur s).dir) :
    n ∈ dirNames s.dir ∨ ∃ r, resolveEntry env cfg mod = Except.ok r ∧ n = r.fileName := by
  cases hres : resolveEntry env cfg mod with
  | error e =>
    simp only [processModDownload, hres] at h
    exact Or.inl h
  | ok r =>
    simp only [processModDownload, hres] at h
    rcases ensureInstalled_name_provenance env mod.name r _ n h with h2 | h2
    · exact Or.inl (foldStale_names_subset _ s n h2)
    · exact Or.inr ⟨r, rfl, h2⟩

/-- Keep-or-download keeps the all-regular-files invariant. -/
theorem downloadAndValidate_isFile (env : Env) (mn : String) (tgt : ResolvedInfo)
    (s : SyncState) (hd : ∀ f ∈ s.dir, f.isFile = true) :
    ∀ f ∈ (downloadAndValidate env mn tgt s).dir, f.isFile = true := by
  unfold downloadAndValidate
  split
  · dsimp only
    split
    · exact writeFile_isFile s.dir tgt.fileName (env.fetchBody tgt.url) hd
    · exact writeFile_isFile s.dir tgt.fileName (env.fetchBody tgt.url) hd
  · exact hd

/-- Step 3 keeps the all-regular-files invariant. -/
theorem ensureInstalled_isFile (env : Env) (mn : String) (tgt : ResolvedInfo)
    (s : SyncState) (hd : ∀ f ∈ s.dir, f.isFile = true) :
    ∀ f ∈ (ensureInstalled env mn tgt s).dir, f.isFile = true := by
  unfold ensureInstalled
  split
  · split
    · exact hd
    · exact downloadAndValidate_isFile env mn tgt s hd
  · exact downloadAndValidate_isFile env mn tgt s hd

/-- One entry keeps the all-regular-files invariant. -/
theorem processModDownload_isFile (env : Env) (cfg : ModpackConfig) (mod : ModConfig)
    (cur : List String) (s : SyncState) (hd : ∀ f ∈ s.dir, f.isFile = true) :
    ∀ f ∈ (processModDownload env cfg mod cur s).dir, f.isFile = true := by
  cases hres : resolveEntry env cfg mod with
  | error e =>
    simp only [processModDownload, hres]
    exact hd
  | ok r =>
    simp only [processModDownload, hres]
    apply ensureInstalled_isFile
    intro f hf
    exact hd f (List.Sublist.mem hf (foldStale_dir_sublist _ s))

/-- Keep-or-download keeps names duplicate-free. -/
theorem downloadAndValidate_nodup (env : Env) (mn : String) (tgt : ResolvedInfo)
    (s : SyncState) (h : (dirNames s.dir).Nodup) :
    (dirNames (downloadAndValidate env mn tgt s).dir).Nodup := by
  unfold downloadAndValidate
  split
  · dsimp only
    split
    · exact writeFile_nodup s.dir tgt.fileName (env.fetchBody tgt.url) h
    · exact writeFile_nodup s.dir tgt.fileName (env.fetchBody tgt.url) h
  · exact h

/-- Step 3 keeps names duplicate-free. -/
theorem ensureInstalled_nodup (env : Env) (mn : String) (tgt : ResolvedInfo)
    (s : SyncState) (h : (dirNames s.dir).Nodup) :
    (dirNames (ensureInstalled env mn tgt s).dir).Nodup := by
  unfold ensureInstalled
  split
  · split
    · exact h
    · exact downloadAndValidate_nodup env mn tgt s h
  · exact downloadAndValidate_nodup env mn tgt s h

/-- One entry keeps names duplicate-free. -/
theorem processModDownload_nodup (env : Env) (cfg : ModpackConfig) (mod : ModConfig)
    (cur : List String) (s : SyncState) (h : (dirNames s.dir).Nodup) :
    (dirNames (processModDownload env cfg mod cur s).dir).Nodup := by
  cases hres : resolveEntry env cfg mod with
  | error e =>
    simp only [processModDownload, hres]
    exact h
  | ok r =>
    simp only [processModDownload, hres]
    apply ensureInstalled_nodup
    exact List.Nodup.sublist (List.Sublist.map _ (foldStale_dir_sublist _ s)) h

/-- A successfully resolved entry with a working download ends its
processing with a non-empty file at its expected path. -/
theorem processModDownload_establishes (env : Env) (cfg : ModpackConfig) (mod : ModConfig)
    (cur : List String) (s : SyncState) (r : ResolvedInfo)
    (hres : resolveEntry env cfg mod = Except.ok r)
    (hfetch : env.fetchOk r.url = true) (hbody : env.fetchBody r.url ≠ []) :
    ∃ f ∈ (processModDownload env cfg mod cur s).dir,
      f.name = r.fileName ∧ f.content.length > 0 := by
  simp only [processModDownload, hres]
  cases hfd : findFile (stalePass (normName mod.name) r.fileName cur s).dir r.fileName with
  | none =>
    simp only [ensureInstalled, hfd]
    unfold downloadAndValidate
    rw [if_pos hfetch]
    dsimp only
    have hwf := findFile_writeFile_self
      (stalePass (normName mod.name) r.fileName cur s).dir r.fileName (env.fetchBody r.url) hfd
    have hmem := findFile_mem _ _ _ hwf
    have hpos : (0 : Nat) < (env.fetchBody r.url).length := List.length_pos.mpr hbody
    split
    · exact ⟨_, hmem.1, hmem.2, hpos⟩
    · exact ⟨_, hmem.1, hmem.2, hpos⟩
  | some f =>
    by_cases hlen : f.content.length > 0
    · simp only [ensureInstalled, hfd]
      rw [if_pos hlen]
      have hmem := findFile_mem _ _ _ hfd
      exact ⟨f, hmem.1, hmem.2, hlen⟩
    · simp only [ensureInstalled, hfd]
      rw [if_neg hlen]
      unfold downloadAndValidate
      rw [if_pos hfetch]
      dsimp only
      have hmem := findFile_mem _ _ _ hfd
      have hany : ((stalePass (normName mod.name) r.fileName cur s).dir.any
          fun g => g.name == r.fileName) = true := by
        rw [List.any_eq_true]
        exact ⟨f, hmem.1, by simp [hmem.2]⟩
      have hpos : (0 : Nat) <
          (env.fetchBody r.url ++ f.content.drop (env.fetchBody r.url).length).length := by
        rw [List.length_append]
        have := List.length_pos.mpr hbody
        omega
      have hg : ∃ g ∈ writeFile (stalePass (normName mod.name) r.fileName cur s).dir
          r.fileName (env.fetchBody r.url), g.name = r.fileName ∧ g.content.length > 0 := by
        unfold writeFile
        rw [if_pos hany]
        refine ⟨{ f with
                    isFile := true,
                    content := env.fetchBody r.url ++ f.content.drop (env.fetchBody r.url).length },
                  ?_, ?_, ?_⟩
        · apply List.mem_map.mpr
          refine ⟨f, hmem.1, ?_⟩
          rw [if_pos (by simp [hmem.2])]
        · exact hmem.2
        · exact hpos
      obtain ⟨g, hgmem, hgn, hgp⟩ := hg
      split
      · exact ⟨g, hgmem, hgn, hgp⟩
      · exact ⟨g, hgmem, hgn, hgp⟩

/-- Processing an entry removes every listed stale variant of it. -/
theorem processModDownload_removes_stale (env : Env) (cfg : ModpackConfig) (mod : ModConfig)
    (cur : List String) (s : SyncState) (r : ResolvedInfo)
    (hres : resolveEntry env cfg mod = Except.ok r) (c : String) (hc : c ∈ cur)
    (hpre : (normName mod.name).isPrefixOf (extractModBaseName c) = true)
    (hne : c ≠ r.fileName) :
    c ∉ dirNames (processModDownload env cfg mod cur s).dir := by
  simp only [processModDownload, hres]
  intro hmem
  rcases ensureInstalled_name_provenance env mod.name r _ c hmem with h2 | h2
  · have hcdup : c ∈ cur.filter (fun current =>
        (normName mod.name).isPrefixOf (extractModBaseName current) && current != r.fileName) :=
      List.mem_filter.mpr ⟨hc, by simp [hpre, bne_iff_ne, hne]⟩
    exact foldStale_removes _ s c hcdup h2
  · exact hne h2

/-- A non-empty file survives an entry's processing (possibly rewritten in
place) provided a starts-with collision can only be the entry's own
expected file. -/
theorem processModDownload_keeps_positive (env : Env) (cfg : ModpackConfig) (mod : ModConfig)
    (cur : List String) (s : SyncState) (n : String)
    (hn : ∃ f ∈ s.dir, f.name = n ∧ f.content.length > 0)
    (hsafe : ∀ r, resolveEntry env cfg mod = Except.ok r →
      (normName mod.name).isPrefixOf (extractModBaseName n) = true → n = r.fileName) :
    ∃ f ∈ (processModDownload env cfg mod cur s).dir, f.name = n ∧ f.content.length > 0 := by
  obtain ⟨f, hf, hfn, hfp⟩ := hn
  cases hres : resolveEntry env cfg mod with
  | error e =>
    simp only [processModDownload, hres]
    exact ⟨f, hf, hfn, hfp⟩
  | ok r =>
    simp only [processModDownload, hres]
    have hf2 : f ∈ (stalePass (normName mod.name) r.fileName cur s).dir := by
      apply foldStale_preserves _ _ _ hf
      intro c hcdup hfc
      obtain ⟨hccur, hcond⟩ := List.mem_filter.mp hcdup
      rw [← hfc, hfn] at hcond
      simp only [Bool.and_eq_true, bne_iff_ne] at hcond
      exact hcond.2 (hsafe r hres hcond.1)
    by_cases hnn : n = r.fileName
    · subst hnn
      cases hfd : findFile (stalePass (normName mod.name) r.fileName cur s).dir r.fileName with
      | none =>
        exfalso
        have := List.find?_eq_none.mp hfd f hf2
        simp [hfn] at this
      | some g =>
        have hgmem := findFile_mem _ _ _ hfd
        by_cases hgl : g.content.length > 0
        · simp only [ensureInstalled, hfd]
          rw [if_pos hgl]
          exact ⟨g, hgmem.1, hgmem.2, hgl⟩
        · simp only [ensureInstalled, hfd]
          rw [if_neg hgl]
          unfold downloadAndValidate
          by_cases hok : env.fetchOk r.url = true
          · rw [if_pos hok]
            dsimp only
            have hany : ((stalePass (normName mod.name) r.fileName cur s).dir.any
                fun g2 => g2.name == r.fileName) = true := by
              rw [List.any_eq_true]
              exact ⟨f, hf2, by simp [hfn]⟩
            have hpos : (0 : Nat) <
                (env.fetchBody r.url ++ f.content.drop (env.fetchBody r.url).length).length := by
              rw [List.length_append, List.length_drop]
              omega
            have hg : ∃ g2 ∈ writeFile (stalePass (normName mod.name) r.fileName cur s).dir
                r.fileName (env.fetchBody r.url), g2.name = r.fileName ∧ g2.content.length > 0 := by
              unfold writeFile
              rw [if_pos hany]
              refine ⟨{ f with
                          isFile := true,
                          content := env.fetchBody r.url ++ f.content.drop (env.fetchBody r.url).length },
                        ?_, ?_, ?_⟩
              · apply List.mem_map.mpr
                refine ⟨f, hf2, ?_⟩
                rw [if_pos (by simp [hfn])]
              · exact hfn
              · exact hpos
            obtain ⟨g2, hg2mem, hg2n, hg2p⟩ := hg
            split
            · exact ⟨g2, hg2mem, hg2n, hg2p⟩
            · exact ⟨g2, hg2mem, hg2n, hg2p⟩
          · rw [if_neg hok]
            exact ⟨f, hf2, hfn, hfp⟩
    · refine ⟨f, ?_, hfn, hfp⟩
      apply ensureInstalled_preserves env mod.name r _ f hf2
      rw [hfn]
      exact hnn


/-- A non-empty file survives the whole entry fold provided a starts-with
collision can only be the respective entry's own expected file. -/
theorem foldEntries_keeps_positive (env : Env) (cfg : ModpackConfig) (ms : List ModConfig)
    (cur : List String) (s : SyncState) (n : String)
    (hn : ∃ f ∈ s.dir, f.name = n ∧ f.content.length > 0)
    (hsafe : ∀ m ∈ ms, ∀ r, resolveEntry env cfg m = Except.ok r →
      (normName m.name).isPrefixOf (extractModBaseName n) = true → n = r.fileName) :
    ∃ f ∈ ((ms.foldl (fun st mod => processModDownload env cfg mod cur st) s)).dir,
      f.name = n ∧ f.content.length > 0 := by
  induction ms generalizing s with
  | nil => exact hn
  | cons m ms ih =>
    exact ih (processModDownload env cfg m cur s)
      (processModDownload_keeps_positive env cfg m cur s n hn (hsafe m (by simp)))
      (fun m2 hm2 => hsafe m2 (by simp [hm2]))

/-- The entry fold leaves a name behind only if it was there or is some
processed entry's resolved expected file name. -/
theorem foldEntries_name_provenance (env : Env) (cfg : ModpackConfig) (ms : List ModConfig)
    (cur : List String) (s : SyncState) (n : String)
    (h : n ∈ dirNames ((ms.foldl (fun st mod => processModDownload env cfg mod cur st) s)).dir) :
    n ∈ dirNames s.dir ∨ ∃ m ∈ ms, ∃ r, resolveEntry env cfg m = Except.ok r ∧ n = r.fileName := by
  induction ms generalizing s with
  | nil => exact Or.inl h
  | cons m ms ih =>
    rcases ih (processModDownload env cfg m cur s) h with h2 | ⟨m2, hm2, r, hr, hn2⟩
    · rcases processModDownload_name_provenance env cfg m cur s n h2 with h3 | ⟨r, hr, hn3⟩
      · exact Or.inl h3
      · exact Or.inr ⟨m, by simp, r, hr, hn3⟩
    · exact Or.inr ⟨m2, by simp [hm2], r, hr, hn2⟩

/-- The entry fold keeps the all-regular-files invariant. -/
theorem foldEntries_isFile (env : Env) (cfg : ModpackConfig) (ms : List ModConfig)
    (cur : List String) (s : SyncState) (hd : ∀ f ∈ s.dir, f.isFile = true) :
    ∀ f ∈ ((ms.foldl (fun st mod => processModDownload env cfg mod cur st) s)).dir,
      f.isFile = true := by
  induction ms generalizing s with
  | nil => exact hd
  | cons m ms ih =>
    exact ih (processModDownload env cfg m cur s)
      (processModDownload_isFile env cfg m cur s hd)

/-- The entry fold keeps names duplicate-free. -/
theorem foldEntries_nodup (env : Env) (cfg : ModpackConfig) (ms : List ModConfig)
    (cur : List String) (s : SyncState) (h : (dirNames s.dir).Nodup) :
    (dirNames ((ms.foldl (fun st mod => processModDownload env cfg mod cur st) s)).dir).Nodup := by
  induction ms generalizing s with
  | nil => exact h
  | cons m ms ih =>
    exact ih (processModDownload env cfg m cur s)
      (processModDownload_nodup env cfg m cur s h)

/-- An absent name stays absent through the entry fold if it is no entry's
resolved expected file name. -/
theorem foldEntries_absent (env : Env) (cfg : ModpackConfig) (ms : List ModConfig)
    (cur : List String) (s : SyncState) (n : String)
    (habs : n ∉ dirNames s.dir)
    (hnew : ∀ m ∈ ms, ∀ r, resolveEntry env cfg m = Except.ok r → n ≠ r.fileName) :
    n ∉ dirNames ((ms.foldl (fun st mod => processModDownload env cfg mod cur st) s)).dir := by
  intro h
  rcases foldEntries_name_provenance env cfg ms cur s n h with h2 | ⟨m, hm, r, hr, heq⟩
  · exact habs h2
  · exact hnew m hm r hr heq

/-- Master convergence facts of the entry fold: after every entry is
processed, each entry's expected file is present and non-empty, and every
listed stale variant of each entry is gone. -/
theorem foldEntries_master (env : Env) (cfg : ModpackConfig) (cur : List String)
    (ms : List ModConfig) (s : SyncState)
    (hok : ∀ m ∈ ms, resolvesOk env cfg m = true)
    (hfetch : ∀ m ∈ ms, env.fetchOk (downloadUrlOf env cfg m) = true
      ∧ env.fetchBody (downloadUrlOf env cfg m) ≠ [])
    (hcross : ∀ m ∈ ms, ∀ m2 ∈ ms,
      (normName m.name).isPrefixOf (extractModBaseName (expectedFileNameOf env cfg m2)) = true →
      expectedFileNameOf env cfg m2 = expectedFileNameOf env cfg m) :
    (∀ m ∈ ms, ∃ f ∈ ((ms.foldl (fun st mod => processModDownload env cfg mod cur st) s)).dir,
        f.name = expectedFileNameOf env cfg m ∧ f.content.length > 0)
    ∧ (∀ m ∈ ms, ∀ c ∈ cur, (normName m.name).isPrefixOf (extractModBaseName c) = true →
        c ≠ expectedFileNameOf env cfg m →
        c ∉ dirNames ((ms.foldl (fun st mod => processModDownload env cfg mod cur st) s)).dir) := by
  induction ms generalizing s with
  | nil =>
    constructor
    · intro m hm
      exact absurd hm (List.not_mem_nil m)
    · intro m hm
      exact absurd hm (List.not_mem_nil m)
  | cons m ms ih =>
    obtain ⟨r, hres⟩ := exists_resolved_of_resolvesOk env cfg m (hok m (by simp))
    have hE : expectedFileNameOf env cfg m = r.fileName := expectedFileNameOf_eq env cfg m r hres
    have hU : downloadUrlOf env cfg m = r.url := downloadUrlOf_eq env cfg m r hres
    obtain ⟨hfo, hfb⟩ := hfetch m (by simp)
    rw [hU] at hfo hfb
    obtain ⟨ih1, ih2⟩ := ih (processModDownload env cfg m cur s)
      (fun m2 hm2 => hok m2 (by simp [hm2]))
      (fun m2 hm2 => hfetch m2 (by simp [hm2]))
      (fun m2 hm2 m3 hm3 hpre => hcross m2 (by simp [hm2]) m3 (by simp [hm3]) hpre)
    constructor
    · intro m2 hm2
      rcases List.mem_cons.mp hm2 with rfl | hm2
      · rw [List.foldl_cons, hE]
        apply foldEntries_keeps_positive env cfg ms cur (processModDownload env cfg m2 cur s) r.fileName
        · exact processModDownload_establishes env cfg m2 cur s r hres hfo hfb
        · intro m3 hm3 r3 hr3 hpre3
          have hE3 : expectedFileNameOf env cfg m3 = r3.fileName :=
            expectedFileNameOf_eq env cfg m3 r3 hr3
          have hcr := hcross m3 (by simp [hm3]) m2 (by simp) (by rw [hE]; exact hpre3)
          rw [← hE, hcr, hE3]
      · rw [List.foldl_cons]
        exact ih1 m2 hm2
    · intro m2 hm2 c hc hpre hne
      rcases List.mem_cons.mp hm2 with rfl | hm2
      · rw [List.foldl_cons]
        apply foldEntries_absent env cfg ms cur (processModDownload env cfg m2 cur s) c
        · apply processModDownload_removes_stale env cfg m2 cur s r hres c hc hpre
          rw [hE] at hne
          exact hne
        · intro m3 hm3 r3 hr3 heq
          have hE3 : expectedFileNameOf env cfg m3 = r3.fileName :=
            expectedFileNameOf_eq env cfg m3 r3 hr3
          apply hne
          have hcr := hcross m2 (by simp) m3 (by simp [hm3]) (by rw [hE3, ← heq]; exact hpre)
          rw [heq, ← hE3]
          exact hcr
      · rw [List.foldl_cons]
        exact ih2 m2 hm2 c hc hpre hne

/-- After one full pass from a directory of distinctly-named regular files,
the directory is converged: all files regular, names duplicate-free, every
entry's expected file present and non-empty, no orphans while pruning is
enabled, and no listed stale variants. -/
theorem syncMods_converges (env : Env) (cfg : ModpackConfig) (dir0 : List DirFile)
    (hfile : ∀ f ∈ dir0, f.isFile = true)
    (hnodup : (dirNames dir0).Nodup)
    (hok : ∀ m ∈ cfg.mods, resolvesOk env cfg m = true)
    (hcont : ∀ m ∈ cfg.mods,
      hasSub (extractModBaseName (expectedFileNameOf env cfg m)) (normName m.name) = true)
    (hcross : ∀ m ∈ cfg.mods, ∀ m2 ∈ cfg.mods,
      (normName m.name).isPrefixOf (extractModBaseName (expectedFileNameOf env cfg m2)) = true →
      expectedFileNameOf env cfg m2 = expectedFileNameOf env cfg m)
    (hfetch : ∀ m ∈ cfg.mods, env.fetchOk (downloadUrlOf env cfg m) = true
      ∧ env.fetchBody (downloadUrlOf env cfg m) ≠ []) :
    (∀ f ∈ (syncMods env cfg dir0).dir, f.isFile = true)
    ∧ (dirNames (syncMods env cfg dir0).dir).Nodup
    ∧ (∀ m ∈ cfg.mods, ∃ f ∈ (syncMods env cfg dir0).dir,
        f.name = expectedFileNameOf env cfg m ∧ f.content.length > 0)
    ∧ (cfg.prune = some false ∨ ∀ f ∈ (syncMods env cfg dir0).dir,
        strEndsWith f.name ".jar" = true →
        ∃ m ∈ cfg.mods, hasSub (extractModBaseName f.name) (normName m.name) = true)
    ∧ (∀ f ∈ (syncMods env cfg dir0).dir, strEndsWith f.name ".jar" = true →
        ∀ m ∈ cfg.mods, (normName m.name).isPrefixOf (extractModBaseName f.name) = true →
        f.name = expectedFileNameOf env cfg m) := by
  have hsync : syncMods env cfg dir0
      = cfg.mods.foldl (fun st mod => processModDownload env cfg mod (getCurrentMods dir0) st)
          (prunePass cfg (getCurrentMods dir0) { dir := dir0, events := [] }) := rfl
  have hs1sub : List.Sublist
      (prunePass cfg (getCurrentMods dir0) { dir := dir0, events := [] }).dir dir0 :=
    prunePass_dir_sublist cfg (getCurrentMods dir0) { dir := dir0, events := [] }
  have hs1file : ∀ f ∈ (prunePass cfg (getCurrentMods dir0) { dir := dir0, events := [] }).dir,
      f.isFile = true := fun f hf => hfile f (List.Sublist.mem hf hs1sub)
  have hs1nodup : (dirNames (prunePass cfg (getCurrentMods dir0) { dir := dir0, events := [] }).dir).Nodup :=
    List.Nodup.sublist (List.Sublist.map _ hs1sub) hnodup
  obtain ⟨hpos, hstaleabs⟩ := foldEntries_master env cfg (getCurrentMods dir0) cfg.mods
    (prunePass cfg (getCurrentMods dir0) { dir := dir0, events := [] }) hok hfetch hcross
  refine ⟨?_, ?_, ?_, ?_, ?_⟩
  · rw [hsync]
    exact foldEntries_isFile env cfg cfg.mods (getCurrentMods dir0) _ hs1file
  · rw [hsync]
    exact foldEntries_nodup env cfg cfg.mods (getCurrentMods dir0) _ hs1nodup
  · rw [hsync]
    exact hpos
  · by_cases hp : cfg.prune = some false
    · exact Or.inl hp
    · right
      intro f hf hjar
      rw [hsync] at hf
      have hname : f.name ∈ dirNames (cfg.mods.foldl
          (fun st mod => processModDownload env cfg mod (getCurrentMods dir0) st)
          (prunePass cfg (getCurrentMods dir0) { dir := dir0, events := [] })).dir :=
        List.mem_map_of_mem _ hf
      rcases foldEntries_name_provenance env cfg cfg.mods (getCurrentMods dir0) _ f.name hname
        with h1 | ⟨m, hm, r, hr, heq⟩
      · obtain ⟨f0, hf0, hf0n⟩ := List.mem_map.mp h1
        have hf0dir0 : f0 ∈ dir0 := List.Sublist.mem hf0 hs1sub
        have hincur : f.name ∈ getCurrentMods dir0 := by
          rw [← hf0n]
          exact mem_getCurrentMods_of_file dir0 f0 hf0dir0 (hfile f0 hf0dir0)
            (by rw [hf0n]; exact hjar)
        have hanyc := prunePass_survivor cfg (getCurrentMods dir0) { dir := dir0, events := [] }
          f.name hp h1 hincur
        rw [List.any_eq_true] at hanyc
        obtain ⟨b, hb, hsubb⟩ := hanyc
        obtain ⟨m, hm, rfl⟩ := List.mem_map.mp hb
        exact ⟨m, hm, hsubb⟩
      · have hEm : expectedFileNameOf env cfg m = r.fileName := expectedFileNameOf_eq env cfg m r hr
        refine ⟨m, hm, ?_⟩
        rw [heq, ← hEm]
        exact hcont m hm
  · intro f hf hjar m hm hpre
    rw [hsync] at hf
    have hname : f.name ∈ dirNames (cfg.mods.foldl
        (fun st mod => processModDownload env cfg mod (getCurrentMods dir0) st)
        (prunePass cfg (getCurrentMods dir0) { dir := dir0, events := [] })).dir :=
      List.mem_map_of_mem _ hf
    rcases foldEntries_name_provenance env cfg cfg.mods (getCurrentMods dir0) _ f.name hname
      with h1 | ⟨m2, hm2, r2, hr2, heq⟩
    · by_cases hfe : f.name = expectedFileNameOf env cfg m
      · exact hfe
      · exfalso
        obtain ⟨f0, hf0, hf0n⟩ := List.mem_map.mp h1
        have hf0dir0 : f0 ∈ dir0 := List.Sublist.mem hf0 hs1sub
        have hincur : f.name ∈ getCurrentMods dir0 := by
          rw [← hf0n]
          exact mem_getCurrentMods_of_file dir0 f0 hf0dir0 (hfile f0 hf0dir0)
            (by rw [hf0n]; exact hjar)
        exact hstaleabs m hm f.name hincur hpre hfe hname
    · have hE2 : expectedFileNameOf env cfg m2 = r2.fileName := expectedFileNameOf_eq env cfg m2 r2 hr2
      have hcr := hcross m hm m2 hm2 (by rw [hE2, ← heq]; exact hpre)
      rw [heq, ← hE2]
      exact hcr

/-- The pruning fold does nothing when every visited name matches some
entry's base name. -/
theorem foldPrune_noop (names : List String) (cn : List (List Char)) (s : SyncState)
    (h : ∀ c ∈ names, (cn.any fun configName => hasSub (extractModBaseName c) configName) = true) :
    (names.foldl (fun st currentMod =>
        if cn.any (fun configName => hasSub (extractModBaseName currentMod) configName) then st
        else pruneRemove st currentMod) s) = s := by
  induction names with
  | nil => rfl
  | cons c l ih =>
    rw [List.foldl_cons, if_pos (h c (by simp))]
    exact ih (fun d hd => h d (by simp [hd]))

/-- Processing one entry over a converged directory is a pure `Keep`:
no deletion, no download, state unchanged except for the trace. -/
theorem processModDownload_kept (env : Env) (cfg : ModpackConfig) (mod : ModConfig)
    (cur : List String) (D : List DirFile) (evs : List SyncEvent) (r : ResolvedInfo)
    (hres : resolveEntry env cfg mod = Except.ok r)
    (hdup : ∀ c ∈ cur,
      ((normName mod.name).isPrefixOf (extractModBaseName c) && c != r.fileName) = false)
    (hfind : ∃ f, findFile D r.fileName = some f ∧ f.content.length > 0) :
    processModDownload env cfg mod cur { dir := D, events := evs }
      = { dir := D, events := evs ++ [SyncEvent.entryDone mod.name EntryOutcome.kept] } := by
  simp only [processModDownload, hres]
  have hfil : cur.filter (fun current =>
      (normName mod.name).isPrefixOf (extractModBaseName current) && current != r.fileName) = [] := by
    rw [List.filter_eq_nil_iff]
    intro c hc
    rw [hdup c hc]
    simp
  have hsp : stalePass (normName mod.name) r.fileName cur { dir := D, events := evs }
      = { dir := D, events := evs } := by
    show (cur.filter (fun current =>
        (normName mod.name).isPrefixOf (extractModBaseName current) && current != r.fileName)).foldl
      tryRemoveStale { dir := D, events := evs } = { dir := D, events := evs }
    rw [hfil]
    rfl
  rw [hsp]
  obtain ⟨f, hfd, hfp⟩ := hfind
  simp only [ensureInstalled, hfd]
  rw [if_pos hfp]

/-- Folding the entries over a converged directory only appends `Keep`
events. -/
theorem foldEntries_kept (env : Env) (cfg : ModpackConfig) (cur : List String)
    (D : List DirFile) (ms : List ModConfig) (evs : List SyncEvent)
    (h : ∀ m ∈ ms, ∃ r, resolveEntry env cfg m = Except.ok r
      ∧ (∀ c ∈ cur, ((normName m.name).isPrefixOf (extractModBaseName c) && c != r.fileName) = false)
      ∧ ∃ f, findFile D r.fileName = some f ∧ f.content.length > 0) :
    ms.foldl (fun st mod => processModDownload env cfg mod cur st) { dir := D, events := evs }
      = { dir := D,
          events := evs ++ ms.map (fun m => SyncEvent.entryDone m.name EntryOutcome.kept) } := by
  induction ms generalizing evs with
  | nil => simp
  | cons m ms ih =>
    obtain ⟨r, hres, hdup, hfind⟩ := h m (by simp)
    rw [List.foldl_cons, processModDownload_kept env cfg m cur D evs r hres hdup hfind,
      ih (evs ++ [SyncEvent.entryDone m.name EntryOutcome.kept])
        (fun m2 hm2 => h m2 (by simp [hm2]))]
    simp

/-- A pass over a converged directory performs no deletion and no
download: the directory is unchanged and every entry is a `Keep`. -/
theorem syncMods_noop (env : Env) (cfg : ModpackConfig) (D : List DirFile)
    (hnodup : (dirNames D).Nodup)
    (hok : ∀ m ∈ cfg.mods, resolvesOk env cfg m = true)
    (hpresent : ∀ m ∈ cfg.mods, ∃ f ∈ D,
      f.name = expectedFileNameOf env cfg m ∧ f.content.length > 0)
    (horph : cfg.prune = some false ∨ ∀ f ∈ D, strEndsWith f.name ".jar" = true →
      ∃ m ∈ cfg.mods, hasSub (extractModBaseName f.name) (normName m.name) = true)
    (hstale : ∀ f ∈ D, strEndsWith f.name ".jar" = true →
      ∀ m ∈ cfg.mods, (normName m.name).isPrefixOf (extractModBaseName f.name) = true →
      f.name = expectedFileNameOf env cfg m) :
    (syncMods env cfg D).dir = D
    ∧ countDeletions (syncMods env cfg D).events = 0
    ∧ countDownloads (syncMods env cfg D).events = 0 := by
  have hprune : prunePass cfg (getCurrentMods D) { dir := D, events := [] }
      = { dir := D, events := [] } := by
    unfold prunePass
    split
    · rename_i hcond
      apply foldPrune_noop
      intro c hc
      obtain ⟨f, hfD, hfn, hfile2, hjar⟩ := of_mem_getCurrentMods D c hc
      rcases horph with hp | horph2
      · rw [hp] at hcond
        simp at hcond
      · obtain ⟨m, hm, hsub⟩ := horph2 f hfD (by rw [hfn]; exact hjar)
        rw [List.any_eq_true]
        refine ⟨normName m.name, List.mem_map_of_mem _ hm, ?_⟩
        rw [← hfn]
        exact hsub
    · rfl
  have hentries := foldEntries_kept env cfg (getCurrentMods D) D cfg.mods []
    (by
      intro m hm
      obtain ⟨r, hres⟩ := exists_resolved_of_resolvesOk env cfg m (hok m hm)
      have hE := expectedFileNameOf_eq env cfg m r hres
      refine ⟨r, hres, ?_, ?_⟩
      · intro c hc
        obtain ⟨f, hfD, hfn, hfile2, hjar⟩ := of_mem_getCurrentMods D c hc
        cases hpre : (normName m.name).isPrefixOf (extractModBaseName c) with
        | false => simp [hpre]
        | true =>
          have hceq : c = expectedFileNameOf env cfg m := by
            rw [← hfn]
            apply hstale f hfD (by rw [hfn]; exact hjar) m hm
            rw [hfn]
            exact hpre
          rw [hceq, hE]
          simp
      · obtain ⟨f, hfD, hfn, hfp⟩ := hpresent m hm
        have hfd : findFile D (expectedFileNameOf env cfg m) = some f := by
          rw [← hfn]
          exact findFile_eq_of_nodup D f hnodup hfD
        rw [hE] at hfd
        exact ⟨f, hfd, hfp⟩)
  have hall : syncMods env cfg D
      = { dir := D,
          events := [] ++ cfg.mods.map (fun m => SyncEvent.entryDone m.name EntryOutcome.kept) } := by
    show cfg.mods.foldl (fun st mod => processModDownload env cfg mod (getCurrentMods D) st)
        (prunePass cfg (getCurrentMods D) { dir := D, events := [] })
      = { dir := D,
          events := [] ++ cfg.mods.map (fun m => SyncEvent.entryDone m.name EntryOutcome.kept) }
    rw [hprune, hentries]
  rw [hall]
  refine ⟨rfl, ?_, ?_⟩
  · unfold countDeletions
    rw [List.countP_eq_zero]
    intro e he
    simp only [List.nil_append] at he
    obtain ⟨m, _, rfl⟩ := List.mem_map.mp he
    simp [isDeletionEvent]
  · unfold countDownloads
    rw [List.countP_eq_zero]
    intro e he
    simp only [List.nil_append] at he
    obtain ⟨m, _, rfl⟩ := List.mem_map.mp he
    simp [isDownloadEvent]

/-- C5 (corrected): idempotence of the second pass holds under the
conditions the counterexamples force: every entry resolves, downloads
deliver non-empty bodies, every resolved file name contains its entry's
base name, and a resolved file name starting with another entry's base
name can only be that entry's own resolved file name (no `sodium` /
`sodium extra`-style overlap).  Under these conditions a second pass over
the unchanged output of a first pass performs zero deletions and zero
downloads. -/
theorem syncMods_second_run_noop (env : Env) (cfg : ModpackConfig) (dir0 : List DirFile)
    (hfile : ∀ f ∈ dir0, f.isFile = true)
    (hnodup : (dirNames dir0).Nodup)
    (hok : ∀ m ∈ cfg.mods, resolvesOk env cfg m = true)
    (hcont : ∀ m ∈ cfg.mods,
      hasSub (extractModBaseName (expectedFileNameOf env cfg m)) (normName m.name) = true)
    (hcross : ∀ m ∈ cfg.mods, ∀ m2 ∈ cfg.mods,
      (normName m.name).isPrefixOf (extractModBaseName (expectedFileNameOf env cfg m2)) = true →
      expectedFileNameOf env cfg m2 = expectedFileNameOf env cfg m)
    (hfetch : ∀ m ∈ cfg.mods, env.fetchOk (downloadUrlOf env cfg m) = true
      ∧ env.fetchBody (downloadUrlOf env cfg m) ≠ []) :
    countDeletions (syncMods env cfg (syncMods env cfg dir0).dir).events = 0
    ∧ countDownloads (syncMods env cfg (syncMods env cfg dir0).dir).events = 0 := by
  obtain ⟨g1, g2, g3, g4, g5⟩ :=
    syncMods_converges env cfg dir0 hfile hnodup hok hcont hcross hfetch
  exact (syncMods_noop env cfg (syncMods env cfg dir0).dir g2 hok g3 g4 g5).2

/-- C5 witness: a single well-behaved entry synchronised twice from an
empty directory. -/
theorem syncMods_second_run_noop_witness :
    countDeletions (syncMods envZipOk cfgSingle (syncMods envZipOk cfgSingle []).dir).events = 0
    ∧ countDownloads (syncMods envZipOk cfgSingle (syncMods envZipOk cfgSingle []).dir).events = 0 :=
  syncMods_second_run_noop envZipOk cfgSingle []
    (by decide) (by decide) (by decide) (by decide) (by decide) (by decide)

end ModSync
